import Mathlib

/-!
Verification of the springfield repository (pensa tracker engine, sgf
orchestrator, ralph agent harness) against its natural-language
specification.  The Rust sources are shallowly embedded: the SQLite
tables of `crates/pensa/src/db.rs` become lists inside a `Db` record,
each SQL statement becomes the corresponding pure list transformation,
timestamps become `Nat` (RFC3339 strings are order-isomorphic), and the
fallible operations return an `Except` result paired with the state the
statements executed so far left behind (the engine runs with no
enclosing transaction, so statements that already ran stay committed
even when a later one fails).
-/

deriving instance DecidableEq for Except

namespace Springfield

/-! ## Data model (crates/pensa/src/types.rs) -/

inductive IssueType where
  | Bug | Task | Test | Chore
deriving DecidableEq, Repr

inductive Status where
  | Open | InProgress | Closed
deriving DecidableEq, Repr

inductive Priority where
  | P0 | P1 | P2 | P3
deriving DecidableEq, Repr

structure Issue where
  id : String
  title : String
  description : Option String
  issue_type : IssueType
  status : Status
  priority : Priority
  spec : Option String
  fixes : Option String
  assignee : Option String
  created_at : Nat
  updated_at : Nat
  closed_at : Option Nat
  close_reason : Option String
deriving DecidableEq, Repr

structure Comment where
  id : String
  issue_id : String
  actor : String
  text : String
  created_at : Nat
deriving DecidableEq, Repr

structure Event where
  id : Nat
  issue_id : String
  event_type : String
  actor : Option String
  detail : Option String
  created_at : Nat
deriving DecidableEq, Repr

/-- The four tables of `.pensa/db.sqlite` (db.rs `run_migrations`), plus
the `events.id` AUTOINCREMENT counter.  `deps` rows are
`(issue_id, depends_on_id)` pairs. -/
structure Db where
  issues : List Issue
  deps : List (String × String)
  comments : List Comment
  events : List Event
  next_event_id : Nat
deriving DecidableEq, Repr

/-! ## Error taxonomy (crates/pensa/src/error.rs) -/

inductive PensaError where
  | NotFound (id : String)
  | AlreadyClaimed (id holder : String)
  | CycleDetected
  | InvalidStatusTransition (fromSt toSt : String)
  | DeleteRequiresForce (reason : String)
  | Internal (msg : String)
deriving DecidableEq, Repr

/-- Source `PensaError::code` (error.rs lines 33-44): only the first four kinds
carry a wire code; `DeleteRequiresForce` and `Internal` return `None`. -/
def PensaError.code : PensaError → Option String
  | .NotFound _ => some "not_found"
  | .AlreadyClaimed _ _ => some "already_claimed"
  | .CycleDetected => some "cycle_detected"
  | .InvalidStatusTransition _ _ => some "invalid_status_transition"
  | .DeleteRequiresForce _ => none
  | .Internal _ => none

/-- Source `impl fmt::Display for PensaError` (error.rs lines 14-31). -/
def PensaError.message : PensaError → String
  | .NotFound id => "issue not found: " ++ id
  | .AlreadyClaimed id holder => "issue " ++ id ++ " already claimed by " ++ holder
  | .CycleDetected => "adding this dependency would create a cycle"
  | .InvalidStatusTransition fromSt toSt =>
      "invalid status transition from " ++ fromSt ++ " to " ++ toSt
  | .DeleteRequiresForce reason => "delete requires --force: " ++ reason
  | .Internal msg => "internal error: " ++ msg

/-- Source `ErrorResponse` (error.rs lines 46-60): the wire envelope. -/
structure ErrorResponse where
  error : String
  code : Option String
deriving DecidableEq, Repr

/-- Source `From<&PensaError> for ErrorResponse`. -/
def errorResponse (e : PensaError) : ErrorResponse :=
  { error := e.message, code := e.code }

/-- The JSON fields of the serialized envelope: `code` carries
`#[serde(skip_serializing_if = "Option::is_none")]`, so a `None` code
omits the field entirely. -/
def ErrorResponse.json_fields (r : ErrorResponse) : List (String × String) :=
  ("error", r.error) :: (match r.code with
    | some c => [("code", c)]
    | none => [])

/-- Source `AppError::into_response` status mapping (daemon.rs lines 19-32). -/
def http_status : PensaError → Nat
  | .NotFound _ => 404
  | .AlreadyClaimed _ _ => 409
  | .CycleDetected => 409
  | .InvalidStatusTransition _ _ => 409
  | .DeleteRequiresForce _ => 409
  | .Internal _ => 500

/-! ## Engine operations (crates/pensa/src/db.rs)

Each operation returns `Except PensaError α × Db`: the second component
is the database state after whatever SQL statements executed before the
operation returned, mirroring the absence of transactions in the source.
`now()` timestamps are passed in as a `ts : Nat` parameter (the source
may call `now()` more than once inside one operation; the calls land in
the same second in practice and no claim depends on them differing). -/

/-- Source `Db::get_issue_only` (db.rs lines 172-183): `SELECT * FROM issues
WHERE id = ?1`, `QueryReturnedNoRows ↦ NotFound`. -/
def get_issue_only (db : Db) (id : String) : Except PensaError Issue :=
  match db.issues.find? (fun i => i.id == id) with
  | some i => .ok i
  | none => .error (.NotFound id)

/-- Source `INSERT INTO events (issue_id, event_type, actor, detail,
created_at)`: the `events.issue_id REFERENCES issues(id)` foreign key is
enforced (`PRAGMA foreign_keys = ON` in `Db::open`), so inserting an
event for a missing issue fails and is mapped to `Internal` by every
call site. -/
def insert_event (db : Db) (issue_id event_type : String)
    (actor detail : Option String) (ts : Nat) : Except PensaError Db :=
  if db.issues.any (fun i => i.id == issue_id) then
    .ok { db with
      events := db.events ++
        [{ id := db.next_event_id, issue_id := issue_id,
           event_type := event_type, actor := actor, detail := detail,
           created_at := ts }],
      next_event_id := db.next_event_id + 1 }
  else
    .error (.Internal ("failed to log " ++ event_type ++ " event"))

/-- The row transformation of `claim_issue`'s conditional `UPDATE`:
rows matching `id = ?3 AND status = 'open'` get `status = in_progress`,
`assignee = actor`, `updated_at = ts`. -/
def claim_upd (id actor : String) (ts : Nat) (i : Issue) : Issue :=
  if i.id = id ∧ i.status = Status.Open then
    { i with status := Status.InProgress, assignee := some actor,
             updated_at := ts }
  else i

/-- Source `Db::claim_issue` (db.rs lines 219-245): a conditional
`UPDATE issues SET status = in_progress, assignee = ?1, updated_at = ?2
WHERE id = ?3 AND status = open`; zero affected rows means the issue is
absent (`NotFound` via `get_issue_only`) or not open (`AlreadyClaimed`
with the current assignee, `unwrap_or_default` giving `""`). -/
def claim_issue (db : Db) (id actor : String) (ts : Nat) :
    Except PensaError Issue × Db :=
  let rows := db.issues.countP
    (fun i => decide (i.id = id ∧ i.status = Status.Open))
  if rows = 0 then
    match get_issue_only db id with
    | .error e => (.error e, db)
    | .ok issue =>
        (.error (.AlreadyClaimed id (issue.assignee.getD "")), db)
  else
    let db1 : Db := { db with issues := db.issues.map (claim_upd id actor ts) }
    match insert_event db1 id "claimed" (some actor) none ts with
    | .error e => (.error e, db1)
    | .ok db2 => (get_issue_only db2 id, db2)

/-- The row transformation of the `UPDATE issues SET status = closed,
closed_at = ?1, close_reason = ?2, updated_at = ?1 WHERE id = ?3`
statement used both for the closed issue and for its `fixes` target. -/
def close_upd (id : String) (reason : Option String) (ts : Nat)
    (i : Issue) : Issue :=
  if i.id = id then
    { i with status := Status.Closed, closed_at := some ts,
             close_reason := reason, updated_at := ts }
  else i

/-- Source `Db::close_issue` (db.rs lines 268-317).  Closes the row, logs a
`closed` event, and — unconditionally — repeats both steps for a
non-null `fixes` target with reason `"fixed by {id}"`. -/
def close_issue (db : Db) (id : String) (reason : Option String)
    (force : Bool) (actor : String) (ts : Nat) :
    Except PensaError Issue × Db :=
  match get_issue_only db id with
  | .error e => (.error e, db)
  | .ok issue =>
    if force = false ∧ issue.status = Status.Closed then
      (.error (.InvalidStatusTransition "closed" "closed"), db)
    else
      let db1 : Db := { db with issues := db.issues.map (close_upd id reason ts) }
      match insert_event db1 id "closed" (some actor) reason ts with
      | .error e => (.error e, db1)
      | .ok db2 =>
        match issue.fixes with
        | none => (get_issue_only db2 id, db2)
        | some fixes_id =>
          let fixes_reason := "fixed by " ++ id
          let db3 : Db := { db2 with
            issues := db2.issues.map
              (close_upd fixes_id (some fixes_reason) ts) }
          match insert_event db3 fixes_id "closed" (some actor)
              (some fixes_reason) ts with
          | .error e => (.error e, db3)
          | .ok db4 => (get_issue_only db4 id, db4)

/-- Source `Db::delete_issue` (db.rs lines 345-397).  Without `force`, refuses
when the issue has dependents (`deps.depends_on_id = id`) or comments;
once past that gate it always cascades: deletes every dep edge touching
the id, the comments, the events, then the issue row. -/
def delete_issue (db : Db) (id : String) (force : Bool) :
    Except PensaError Unit × Db :=
  match get_issue_only db id with
  | .error e => (.error e, db)
  | .ok _ =>
    let dependents := db.deps.countP (fun e => e.2 == id)
    let comments := db.comments.countP (fun c => c.issue_id == id)
    if force = false ∧ (0 < dependents ∨ 0 < comments) then
      (.error (.DeleteRequiresForce
        ("issue has " ++ toString dependents ++ " dependents and " ++
         toString comments ++ " comments")), db)
    else
      (.ok (), { db with
        deps := db.deps.filter (fun e => !(e.1 == id || e.2 == id)),
        comments := db.comments.filter (fun c => !(c.issue_id == id)),
        events := db.events.filter (fun ev => !(ev.issue_id == id)),
        issues := db.issues.filter (fun i => !(i.id == id)) })

/-! ## Dependency graph (db.rs lines 718-940)

The dep table is a list of `(issue_id, depends_on_id)` edges.  The two
graph walks of the source (`has_cycle`, the DFS inside `detect_cycles`)
are `while` loops over a stack or queue; they are embedded as
fuel-indexed step functions that return `none` on fuel exhaustion, and
the termination of the source loops is the theorem that the fuel bound
computed from the graph always suffices. -/

/-- Source `SELECT depends_on_id FROM deps WHERE issue_id = ?1`. -/
def succs (edges : List (String × String)) (v : String) : List String :=
  (edges.filter (fun e => e.1 == v)).map (fun e => e.2)

/-- One step of the dep relation: `a` depends on `b`. -/
def edge_rel (edges : List (String × String)) (a b : String) : Prop :=
  (a, b) ∈ edges

/-- Reachability through dep edges (zero or more steps). -/
def reaches (edges : List (String × String)) (a b : String) : Prop :=
  Relation.ReflTransGen (edge_rel edges) a b

/-- A dependency cycle: some id reaches itself in at least one step. -/
def cyclic (edges : List (String × String)) : Prop :=
  ∃ x, Relation.TransGen (edge_rel edges) x x

def acyclic (edges : List (String × String)) : Prop := ¬ cyclic edges

/-- Every id occurring in the edge list. -/
def nodes_of (edges : List (String × String)) : Finset String :=
  edges.foldr (fun e s => insert e.1 (insert e.2 s)) ∅

/-- The `for p in parents
 { if visited.insert(p) { queue.push_back(p) } }`
inner loop shared by the BFS of `has_cycle`: enqueue and mark each
not-yet-visited successor. -/
def bfs_fold (ps : List String) (qv : List String × Finset String) :
    List String × Finset String :=
  ps.foldl
    (fun qv p => if p ∈ qv.2 then qv else (qv.1 ++ [p], insert p qv.2)) qv

/-- The loop body of `Db::has_cycle` (db.rs lines 909-940): BFS from
`parent_id`; pops the front of the queue, answers `true` on reaching
`child`, otherwise enqueues the not-yet-visited successors.  `none`
means the fuel ran out (never happens, see `bfs_terminates`). -/
def bfs (edges : List (String × String)) (child : String) :
    Nat → List String → Finset String → Option Bool
  | 0, _, _ => none
  | _ + 1, [], _ => some false
  | fuel + 1, current :: rest, visited =>
    if current == child then some true
    else
      bfs edges child fuel (bfs_fold (succs edges current) (rest, visited)).1
        (bfs_fold (succs edges current) (rest, visited)).2

/-- Fuel that always suffices for `bfs` (one unit per queue entry plus
one per unvisited node; see `bfs_terminates`). -/
def bfs_fuel (edges : List (String × String)) : Nat :=
  (nodes_of edges).card + 2

/-- Source `Db::has_cycle (child_id, parent_id)`: is `child` reachable from
`parent` (so that inserting the edge `child → parent` closes a cycle)? -/
def has_cycle (edges : List (String × String)) (child parent : String) :
    Option Bool :=
  bfs edges child (bfs_fuel edges) [parent] {parent}

/-- Source `Db::add_dep` (db.rs lines 718-742): existence checks, cycle check,
`INSERT INTO deps` (whose `PRIMARY KEY (issue_id, depends_on_id)` makes
a duplicate insert fail with a constraint violation mapped to
`Internal`), then the `dep_added` event.  The `none` branch of the
fueled cycle check is unreachable (`bfs_terminates`). -/
def add_dep (db : Db) (child_id parent_id actor : String) (ts : Nat) :
    Except PensaError Unit × Db :=
  match get_issue_only db child_id with
  | .error e => (.error e, db)
  | .ok _ =>
  match get_issue_only db parent_id with
  | .error e => (.error e, db)
  | .ok _ =>
  match has_cycle db.deps child_id parent_id with
  | none => (.error (.Internal "cycle check out of fuel"), db)
  | some true => (.error .CycleDetected, db)
  | some false =>
    if (child_id, parent_id) ∈ db.deps then
      (.error (.Internal "failed to add dep"), db)
    else
      let db1 : Db := { db with deps := db.deps ++ [(child_id, parent_id)] }
      match insert_event db1 child_id "dep_added" (some actor)
          (some ("depends on " ++ parent_id)) ts with
      | .error e => (.error e, db1)
      | .ok db2 => (.ok (), db2)

/-- Source `Db::remove_dep` (db.rs lines 744-773): `DELETE FROM deps WHERE
issue_id = ?1 AND depends_on_id = ?2`; zero deleted rows is `NotFound`,
otherwise a `dep_removed` event is logged. -/
def remove_dep (db : Db) (child_id parent_id actor : String) (ts : Nat) :
    Except PensaError Unit × Db :=
  let rows := db.deps.countP (fun e => e == (child_id, parent_id))
  let db1 : Db := { db with
    deps := db.deps.filter (fun e => !(e == (child_id, parent_id))) }
  if rows = 0 then
    (.error (.NotFound ("dep " ++ child_id ++ " -> " ++ parent_id)), db)
  else
    match insert_event db1 child_id "dep_removed" (some actor)
        (some ("no longer depends on " ++ parent_id)) ts with
    | .error e => (.error e, db1)
    | .ok db2 => (.ok (), db2)

/-- A call to one of the two edge-mutating operations. -/
inductive DepOp where
  | add (child parent actor : String) (ts : Nat)
  | remove (child parent actor : String) (ts : Nat)

def apply_dep_op (db : Db) : DepOp → Db
  | .add c p a ts => (add_dep db c p a ts).2
  | .remove c p a ts => (remove_dep db c p a ts).2

def apply_dep_ops (db : Db) (ops : List DepOp) : Db :=
  ops.foldl apply_dep_op db

/-! ### `Db::detect_cycles` (db.rs lines 849-907) -/

/-- First-occurrence deduplication, modelling
`SELECT DISTINCT issue_id FROM deps` read off the stored edge order. -/
def dedup_first : List String → List String
  | [] => []
  | x :: xs => x :: (dedup_first xs).filter (fun y => !(y == x))

/-- The ids `detect_cycles` iterates over. -/
def all_ids (edges : List (String × String)) : List String :=
  dedup_first (edges.map (fun e => e.1))

/-- The `for parent in parents` loop inside the DFS of
`detect_cycles`: a successor equal to `start` behind a path of length
`> 1` records `path ++ [start]` as a cycle; other successors not in
`visited` (which already holds `current`) are pushed with their
extended paths. -/
def dfs_fold (start : String) (path : List String) (visited : Finset String)
    (ps : List String)
    (sc : List (String × List String) × List (List String)) :
    List (String × List String) × List (List String) :=
  ps.foldl
    (fun sc parent =>
      if parent == start && decide (1 < path.length) then
        (sc.1, sc.2 ++ [path ++ [parent]])
      else if parent ∈ visited then sc
      else ((parent, path ++ [parent]) :: sc.1, sc.2)) sc

/-- The inner `while let Some((current, path)) = stack.pop()` loop of
`detect_cycles`: depth-first from `start` with a stack of
`(node, path from start)` pairs. -/
def dfs (edges : List (String × String)) (start : String) :
    Nat → List (String × List String) → Finset String →
    List (List String) → Option (List (List String) × Finset String)
  | 0, _, _, _ => none
  | _ + 1, [], visited, cycles => some (cycles, visited)
  | fuel + 1, (current, path) :: stack, visited, cycles =>
    if current ∈ visited then dfs edges start fuel stack visited cycles
    else
      dfs edges start fuel
        (dfs_fold start path (insert current visited)
          (succs edges current) (stack, cycles)).1
        (insert current visited)
        (dfs_fold start path (insert current visited)
          (succs edges current) (stack, cycles)).2

/-- An entry `(current, path)` of the DFS stack: `path` is a walk along
dep edges from `start` to `current`. -/
def path_inv (edges : List (String × String)) (start : String)
    (e : String × List String) : Prop :=
  e.2.head? = some start ∧ e.2.getLast? = some e.1 ∧
    List.Chain' (edge_rel edges) e.2

/-- A non-trivial closed walk along dep edges: what each recorded
`detect_cycles` entry is. -/
def is_closed_walk (edges : List (String × String)) (q : List String) :
    Prop :=
  ∃ x l, q = x :: l ∧ l ≠ [] ∧ q.getLast? = some x ∧
    List.Chain (edge_rel edges) x l

/-- Fuel that always suffices for `dfs` (see `dfs_terminates`). -/
def dfs_fuel (edges : List (String × String)) : Nat :=
  (nodes_of edges).card * (edges.length + 1) + 2

/-- The outer `for start_id in &all_ids` loop of `detect_cycles`,
skipping globally-visited starts and accumulating the cycle list. -/
def detect_aux (edges : List (String × String)) :
    List String → Finset String → List (List String) →
    Option (List (List String))
  | [], _, cycles => some cycles
  | start :: rest, visitedG, cycles =>
    if start ∈ visitedG then detect_aux edges rest visitedG cycles
    else
      match dfs edges start (dfs_fuel edges) [(start, [start])] ∅ cycles with
      | none => none
      | some (cycles', visitedL) =>
          detect_aux edges rest (visitedG ∪ visitedL) cycles'

/-- Source `Db::detect_cycles`, `none` meaning fuel exhaustion (which never
occurs: `detect_cycles_total`). -/
def detect_cycles (edges : List (String × String)) :
    Option (List (List String)) :=
  detect_aux edges (all_ids edges) ∅ []

/-! ## JSONL export / import

`Db::export_jsonl` and `Db::import_jsonl` are part of this repository
but their implementation is not under `src/` — only the daemon endpoint
callers (`daemon.rs` lines 592-602) are.  They are therefore modelled
from the specification (§4.1, §6, §8).  A `.jsonl` file is modelled as
the list of entity records its lines decode to (each line is a single
JSON object holding exactly the entity's fields, so the line ↔ record
correspondence is a bijection). -/

/-- Insertion into a list sorted by `le` (used to model the export
orderings; only the permutation property matters for the claims). -/
def insert_sorted (le : α → α → Bool) (a : α) : List α → List α
  | [] => [a]
  | b :: l => if le a b then a :: b :: l else b :: insert_sorted le a l

def sort_by (le : α → α → Bool) : List α → List α
  | [] => []
  | a :: l => insert_sorted le a (sort_by le l)

/-- The four files written under `.pensa/`. -/
structure ExportFiles where
  issues : List Issue
  deps : List (String × String)
  comments : List Comment
  events : List Event
deriving DecidableEq, Repr

/-- Modelled from the spec: `export_jsonl()` (missing from src/; §4.1)
"Writes four files under `.pensa/`: `issues.jsonl`, `deps.jsonl`,
`comments.jsonl`, `events.jsonl`.  Each line is a single JSON object
with the entity's fields.  Ordering: issues by `created_at` ASC, deps by
(issue_id, depends_on_id), comments by `created_at` ASC, events by
sequence ASC." -/
def export_jsonl (db : Db) : ExportFiles :=
  { issues := sort_by (fun a b => a.created_at ≤ b.created_at) db.issues,
    deps := sort_by (fun a b =>
      a.1 < b.1 || (a.1 == b.1 && a.2 ≤ b.2)) db.deps,
    comments := sort_by (fun a b => a.created_at ≤ b.created_at) db.comments,
    events := sort_by (fun a b => a.id ≤ b.id) db.events }

/-- Do the dep, comment and event rows of the files all reference
present issue ids?  (The staging validation of `import_jsonl`.) -/
def refs_ok (f : ExportFiles) : Bool :=
  let ids := f.issues.map (fun i => i.id)
  f.deps.all (fun e => ids.contains e.1 && ids.contains e.2) &&
  f.comments.all (fun c => ids.contains c.issue_id) &&
  f.events.all (fun ev => ids.contains ev.issue_id)

/-- Modelled from the spec: `import_jsonl()` (missing from src/; §4.1)
"Transactionally rebuilds the database from those four files.  Strategy:
load into a staging representation, validate referential integrity,
truncate live tables, insert in dependency-safe order (issues → deps →
comments → events), re-seed the event sequence." -/
def import_jsonl (_db : Db) (f : ExportFiles) : Except PensaError Db :=
  if refs_ok f then
    .ok { issues := f.issues, deps := f.deps, comments := f.comments,
          events := f.events,
          next_event_id := (f.events.map (fun ev => ev.id)).foldr Nat.max 0 + 1 }
  else
    .error (.Internal "import failed referential integrity validation")

/-! ## Ralph NDJSON formatter (crates/ralph/src/format.rs)

Rust `&str` values are embedded as `List Char`; the Rust byte length
`s.len()` is the summed UTF-8 size of the characters. -/

/-- A JSON value as `serde_json::Value` (strings as `List Char`). -/
inductive Json where
  | null
  | bool (b : Bool)
  | num (n : Int)
  | str (s : List Char)
  | arr (xs : List Json)
  | obj (fields : List (String × Json))

/-- Source `input["key"]` object indexing (first matching field). -/
def Json.get_field : Json → String → Option Json
  | .obj fields, k => (fields.find? (fun f => f.1 == k)).map (fun f => f.2)
  | _, _ => none

/-- Source `Value::as_str`. -/
def Json.as_str : Json → Option (List Char)
  | .str s => some s
  | _ => none

/-- Source `Value::as_u64`. -/
def Json.as_u64 : Json → Option Nat
  | .num n => if 0 ≤ n then some n.toNat else none
  | _ => none

/-- Source `Value::as_array`. -/
def Json.as_arr : Json → Option (List Json)
  | .arr xs => some xs
  | _ => none

/-- Rust `s.len()` on a `&str`: UTF-8 byte length. -/
def byte_len (s : List Char) : Nat :=
  (s.map Char.utf8Size).sum

/-- Source `truncate` (format.rs lines 122-145).  Returns `s` unchanged only
when both the byte length and the character count are at most `max`
(`s.len() <= max` guards the fast path, so a short-in-characters but
long-in-bytes string falls through).  Otherwise the `char_indices` loop
keeps the first `min(max, char_count)` characters — at least one, since
`end` starts at the first character's byte index — and appends `"..."`;
the slice boundary `slice_end` is the end of a character, so the cut is
UTF-8 safe. -/
def truncate (s : List Char) (max : Nat) : List Char :=
  if byte_len s ≤ max then
    if s.length ≤ max then s
    else s.take (Nat.max (Nat.min max s.length) 1) ++ ['.', '.', '.']
  else s.take (Nat.max (Nat.min max s.length) 1) ++ ['.', '.', '.']

/-- Source `format_tool_call` (format.rs lines 68-109): renders one `tool_use`
block as `-> Name(detail)`. -/
def format_tool_call (name : String) (input : Json) : List Char :=
  let detail : List Char :=
    if name == "Read" then
      let file_path := ((input.get_field "file_path").bind Json.as_str).getD ['?']
      let offset := (input.get_field "offset").bind Json.as_u64
      let limit := (input.get_field "limit").bind Json.as_u64
      match offset, limit with
      | some o, some l =>
          file_path ++ [' '] ++ (Nat.repr o).data ++ [':'] ++ (Nat.repr l).data
      | some o, none => file_path ++ [' '] ++ (Nat.repr o).data
      | none, some l => file_path ++ [' ', ':'] ++ (Nat.repr l).data
      | none, none => file_path
    else if name == "Edit" || name == "Write" then
      ((input.get_field "file_path").bind Json.as_str).getD ['?']
    else if name == "Bash" then
      truncate (((input.get_field "command").bind Json.as_str).getD ['?']) 100
    else if name == "Glob" then
      ((input.get_field "pattern").bind Json.as_str).getD ['?']
    else if name == "Grep" then
      ((input.get_field "pattern").bind Json.as_str).getD ['?']
    else if name == "TodoWrite" then
      let count := (((input.get_field "todos").bind Json.as_arr).map
        List.length).getD 0
      (Nat.repr count).data ++ " items".data
    else
      match input with
      | .obj fields =>
        match (fields.map (fun f => f.2)).findSome? Json.as_str with
        | some s => truncate s 80
        | none => []
      | _ => []
  "-> ".data ++ name.data ++ ['('] ++ detail ++ [')']

/-! ## Ralph CLI and the orchestrator's argument vector
(crates/ralph/src/main.rs lines 50-90, crates/sgf/src/orchestrate.rs
lines 36-64) -/

/-- The clap-derived `Cli` struct of ralph.  It has *no* `loop_id`
field. -/
structure RalphCli where
  afk : Bool
  iterations : Nat
  prompt : String
  template : String
  max_iterations : Nat
  auto_push : Bool
  command : Option String
deriving DecidableEq, Repr

/-- Defaults: `iterations = 1`, `prompt = "prompt.md"`,
`template = "tauri-sandbox:latest"`, `max_iterations = 100`,
`auto_push = true` (environment overrides absent). -/
def ralph_cli_default : RalphCli :=
  { afk := false, iterations := 1, prompt := "prompt.md",
    template := "tauri-sandbox:latest", max_iterations := 100,
    auto_push := true, command := none }

inductive ClapError where
  | unexpected_argument (s : String)
  | missing_value (s : String)
  | invalid_value (s : String)
deriving DecidableEq, Repr

def digit_val (c : Char) : Option Nat :=
  if '0' ≤ c && c ≤ '9' then some (c.toNat - '0'.toNat) else none

def to_nat_aux : List Char → Nat → Option Nat
  | [], acc => some acc
  | c :: cs, acc =>
    match digit_val c with
    | none => none
    | some d => to_nat_aux cs (acc * 10 + d)

/-- Source `u32::from_str` on a decimal string (clap's `u32` value parser). -/
def str_to_nat (s : String) : Option Nat :=
  match s.data with
  | [] => none
  | l => to_nat_aux l 0

/-- Does the token look like a flag (`-x`, `--x`), as opposed to a bare
positional or the special `-`? -/
def flag_like (s : String) : Bool :=
  match s.data with
  | '-' :: _ :: _ => true
  | _ => false

/-- Source `parse_bool` (main.rs lines 82-90): lowercases, then accepts
`true/1/yes` and `false/0/no`. -/
def parse_bool (s : String) : Option Bool :=
  let l := s.data.map Char.toLower
  if l == "true".data || l == "1".data || l == "yes".data then some true
  else if l == "false".data || l == "0".data || l == "no".data then
    some false
  else none

/-- Clap argument parsing for the declared `Cli`: long/short flags as
derived from the struct, then at most two positionals
(`iterations : u32`, `prompt`).  Any flag token not among the declared
ones — `--loop-id` included — is an `unexpected_argument` error. -/
def ralph_parse_args :
    List String → RalphCli → Nat → Except ClapError RalphCli
  | [], cli, _ => .ok cli
  | arg :: rest, cli, npos =>
    if arg == "-a" || arg == "--afk" then
      ralph_parse_args rest { cli with afk := true } npos
    else if arg == "--template" then
      match rest with
      | [] => .error (.missing_value arg)
      | v :: rest' => ralph_parse_args rest' { cli with template := v } npos
    else if arg == "--max-iterations" then
      match rest with
      | [] => .error (.missing_value arg)
      | v :: rest' =>
        match str_to_nat v with
        | none => .error (.invalid_value v)
        | some n =>
            ralph_parse_args rest' { cli with max_iterations := n } npos
    else if arg == "--auto-push" then
      match rest with
      | [] => .error (.missing_value arg)
      | v :: rest' =>
        match parse_bool v with
        | none => .error (.invalid_value v)
        | some b => ralph_parse_args rest' { cli with auto_push := b } npos
    else if arg == "--command" then
      match rest with
      | [] => .error (.missing_value arg)
      | v :: rest' => ralph_parse_args rest' { cli with command := some v } npos
    else if flag_like arg then
      .error (.unexpected_argument arg)
    else if npos == 0 then
      match str_to_nat arg with
      | none => .error (.invalid_value arg)
      | some n => ralph_parse_args rest { cli with iterations := n } 1
    else if npos == 1 then
      ralph_parse_args rest { cli with prompt := arg } 2
    else
      .error (.unexpected_argument arg)

def ralph_parse (args : List String) : Except ClapError RalphCli :=
  ralph_parse_args args ralph_cli_default 0

/-- The fields of `sgf::orchestrate::LoopConfig` consumed by
`build_ralph_args`. -/
structure LoopConfig where
  afk : Bool
  no_push : Bool
  iterations : Nat
deriving DecidableEq, Repr

/-- Source `build_ralph_args` (orchestrate.rs lines 36-64): `[-a] --loop-id
<id> --template ralph-sandbox:latest --auto-push <bool>
--max-iterations 30 <iterations> <prompt-path>`. -/
def build_ralph_args (config : LoopConfig) (loop_id prompt_path : String) :
    List String :=
  (if config.afk then ["-a"] else []) ++
  ["--loop-id", loop_id,
   "--template", "ralph-sandbox:latest",
   "--auto-push", if config.no_push then "false" else "true",
   "--max-iterations", "30",
   toString config.iterations,
   prompt_path]

/-! ## Concrete states used by witnesses and counterexamples -/

/-- A fresh open task, as `create_issue` would produce it. -/
def mk_task (id : String) (t : Nat) : Issue :=
  { id := id, title := "task " ++ id, description := none,
    issue_type := IssueType.Task, status := Status.Open,
    priority := Priority.P2, spec := none, fixes := none, assignee := none,
    created_at := t, updated_at := t, closed_at := none,
    close_reason := none }

def created_event (n : Nat) (id : String) (t : Nat) : Event :=
  { id := n, issue_id := id, event_type := "created",
    actor := some "test-agent", detail := none, created_at := t }

/-- Two tasks, no edges: the C1 witness state. -/
def db_w1 : Db :=
  { issues := [mk_task "pn-a" 1, mk_task "pn-b" 2],
    deps := [], comments := [],
    events := [created_event 1 "pn-a" 1, created_event 2 "pn-b" 2],
    next_event_id := 3 }

/-- A bug and a task fixing it: the C4 witness state. -/
def db_w4 : Db :=
  { issues := [{ mk_task "pn-bug" 1 with issue_type := IssueType.Bug },
               { mk_task "pn-fix" 2 with fixes := some "pn-bug" }],
    deps := [], comments := [],
    events := [created_event 1 "pn-bug" 1, created_event 2 "pn-fix" 2],
    next_event_id := 3 }

/-- Issue `a` depends on `b`: `a` has an outgoing edge, no dependents,
no comments — so a non-forced delete of `a` is permitted.  Used for the
C6 counterexample and the C10 witness. -/
def db_w6 : Db :=
  { issues := [mk_task "a" 1, mk_task "b" 2],
    deps := [("a", "b")], comments := [],
    events := [created_event 1 "a" 1, created_event 2 "b" 2],
    next_event_id := 3 }

/-- The C5 counterexample graph: a feeder edge `a → b` in front of the
cycle `b → c → b`; sorted by (issue_id, depends_on_id), so the DISTINCT
start order is `a, b, c` however the table is scanned. -/
def edges_w5 : List (String × String) :=
  [("a", "b"), ("b", "c"), ("c", "b")]

/-- Three tasks, no edges: the C3 witness start state. -/
def db_w3 : Db :=
  { issues := [mk_task "a" 1, mk_task "b" 2, mk_task "c" 3],
    deps := [], comments := [],
    events := [created_event 1 "a" 1, created_event 2 "b" 2,
               created_event 3 "c" 3],
    next_event_id := 4 }

/-- The C3 witness op sequence: two inserts, a rejected closing edge,
one removal. -/
def ops_w3 : List DepOp :=
  [DepOp.add "b" "a" "t" 4, DepOp.add "c" "b" "t" 5,
   DepOp.add "a" "c" "t" 6, DepOp.remove "b" "a" "t" 7]

/-- The C2 witness state: two issues, an edge, a comment, the events. -/
def db_w2 : Db :=
  { issues := [mk_task "pn-x" 5, mk_task "pn-y" 3],
    deps := [("pn-x", "pn-y")],
    comments := [{ id := "pn-c1", issue_id := "pn-x", actor := "alice",
                   text := "note", created_at := 6 }],
    events := [created_event 1 "pn-y" 3, created_event 2 "pn-x" 5],
    next_event_id := 3 }

/-- 51 two-byte characters: 51 ≤ 100 characters but 102 > 100 bytes —
the C7 counterexample command. -/
def cmd_w7 : List Char := List.replicate 51 'é'

/-- The argument vector the orchestrator builds for a `build auth` AFK
loop with 10 iterations (cf. the `build_args_build_afk_no_push` test in
orchestrate.rs). -/
def argv_w8 : List String :=
  build_ralph_args { afk := true, no_push := false, iterations := 10 }
    "build-auth-20260226T143000" "/tmp/prompt.md"

/-! # Theorems -/

/-! ## C9 — wire codes of the error taxonomy -/

/-- C9 (counterexample): contrary to the claim, `DeleteRequiresForce`
and `Internal` do not serialise with codes `delete_requires_force` and
`internal`: `PensaError::code` returns `None` for both, so the envelope
omits the `code` field. -/
theorem C9_cex :
    (errorResponse (.DeleteRequiresForce
        "issue has 1 dependents and 0 comments")).code ≠
      some "delete_requires_force" ∧
    (errorResponse (.Internal "db error")).code ≠ some "internal" := by
  decide

/-- C9 (amended): every error kind serialises to the envelope
`{error, code?}`; `NotFound`, `AlreadyClaimed`, `CycleDetected` and
`InvalidStatusTransition` carry their four codes, while
`DeleteRequiresForce` and `Internal` serialise without a `code` field. -/
theorem C9_codes (id holder fromSt toSt reason msg : String) :
    (errorResponse (.NotFound id)).json_fields =
      [("error", "issue not found: " ++ id), ("code", "not_found")] ∧
    (errorResponse (.AlreadyClaimed id holder)).json_fields =
      [("error", "issue " ++ id ++ " already claimed by " ++ holder),
       ("code", "already_claimed")] ∧
    (errorResponse .CycleDetected).json_fields =
      [("error", "adding this dependency would create a cycle"),
       ("code", "cycle_detected")] ∧
    (errorResponse (.InvalidStatusTransition fromSt toSt)).json_fields =
      [("error", "invalid status transition from " ++ fromSt ++ " to " ++ toSt),
       ("code", "invalid_status_transition")] ∧
    (errorResponse (.DeleteRequiresForce reason)).json_fields =
      [("error", "delete requires --force: " ++ reason)] ∧
    (errorResponse (.Internal msg)).json_fields =
      [("error", "internal error: " ++ msg)] :=
  ⟨rfl, rfl, rfl, rfl, rfl, rfl⟩

/-! ## C8 — ralph does not accept `--loop-id` -/

/-- C8: the claim fails — ralph's clap `Cli` declares no `loop_id`
field, so for *every* argument vector the orchestrator builds, parsing
stops at `--loop-id` with an unexpected-argument error (while ralph's
own integration tests pass `--loop-id` and expect a Loop ID banner). -/
theorem C8_loop_id_rejected (config : LoopConfig)
    (loop_id prompt_path : String) :
    ralph_parse (build_ralph_args config loop_id prompt_path) =
      .error (.unexpected_argument "--loop-id") := by
  obtain ⟨afk, no_push, iterations⟩ := config
  cases afk <;>
    simp [build_ralph_args, ralph_parse, ralph_parse_args, flag_like,
      ralph_cli_default]

/-! ## C7 — Bash command truncation -/

/-- Every character encodes to at least one byte, so the character count
is bounded by the byte length. -/
theorem length_le_byte_len (s : List Char) : s.length ≤ byte_len s := by
  induction s with
  | nil => simp [byte_len]
  | cons c cs ih =>
    have hc : 0 < c.utf8Size := Char.utf8Size_pos c
    simp only [byte_len, List.map_cons, List.sum_cons, List.length_cons] at ih ⊢
    omega

/-- The `Bash` branch of `format_tool_call` renders
`-> Bash(truncate command 100)`. -/
theorem format_bash (cmd : List Char) :
    format_tool_call "Bash" (Json.obj [("command", Json.str cmd)]) =
      "-> Bash(".data ++ truncate cmd 100 ++ [')'] := by
  simp [format_tool_call, Json.get_field, Json.as_str]

/-- C7 (counterexample): a command of 51 characters (all two-byte, so
102 bytes) is within the claimed 100-character limit, yet the formatter
does not emit it unchanged — it appends `"..."`. -/
theorem C7_cex :
    cmd_w7.length ≤ 100 ∧
    format_tool_call "Bash" (Json.obj [("command", Json.str cmd_w7)]) ≠
      "-> Bash(".data ++ cmd_w7 ++ [')'] := by
  decide

/-- C7 (amended): the formatter emits `-> Bash(<detail>)` where
`detail` is the command unchanged when the command's UTF-8 *byte* length
is at most 100, and otherwise the command's first
`max (min 100 charcount) 1` characters followed by `"..."` (so a command
of at most 100 characters but more than 100 bytes is emitted in full
with a spurious `"..."` suffix); the kept portion is always a character
prefix of the command, so the cut falls on a UTF-8 character boundary
and the output is never invalid UTF-8. -/
theorem C7_truncation (cmd : List Char) :
    (byte_len cmd ≤ 100 →
      format_tool_call "Bash" (Json.obj [("command", Json.str cmd)]) =
        "-> Bash(".data ++ cmd ++ [')']) ∧
    (100 < byte_len cmd →
      format_tool_call "Bash" (Json.obj [("command", Json.str cmd)]) =
        "-> Bash(".data ++
          cmd.take (Nat.max (Nat.min 100 cmd.length) 1) ++ "...)".data) ∧
    (∃ k, truncate cmd 100 = cmd.take k ∨
      truncate cmd 100 = cmd.take k ++ ['.', '.', '.']) := by
  refine ⟨fun hb => ?_, fun hb => ?_, ?_⟩
  · have hl : cmd.length ≤ 100 := le_trans (length_le_byte_len cmd) hb
    rw [format_bash, truncate, if_pos hb, if_pos hl]
  · rw [format_bash, truncate, if_neg (by omega)]
    simp
  · by_cases hb : byte_len cmd ≤ 100
    · by_cases hl : cmd.length ≤ 100
      · exact ⟨cmd.length, Or.inl (by rw [truncate, if_pos hb, if_pos hl,
          List.take_length])⟩
      · exact ⟨Nat.max (Nat.min 100 cmd.length) 1,
          Or.inr (by rw [truncate, if_pos hb, if_neg hl])⟩
    · exact ⟨Nat.max (Nat.min 100 cmd.length) 1,
        Or.inr (by rw [truncate, if_neg hb])⟩

/-- C7 witness: the amended theorem applied to the short command
`git status` (emitted verbatim) and to a 120-character ASCII command
(cut to 100 characters plus `"..."`). -/
theorem C7_wit :
    (byte_len "git status".data ≤ 100 ∧
      format_tool_call "Bash" (Json.obj [("command", Json.str "git status".data)]) =
        "-> Bash(".data ++ "git status".data ++ [')']) ∧
    (100 < byte_len (List.replicate 120 'x') ∧
      format_tool_call "Bash"
          (Json.obj [("command", Json.str (List.replicate 120 'x'))]) =
        "-> Bash(".data ++
          (List.replicate 120 'x').take
            (Nat.max (Nat.min 100 (List.replicate 120 'x').length) 1) ++
          "...)".data) :=
  ⟨⟨by decide, (C7_truncation "git status".data).1 (by decide)⟩,
   ⟨by decide, (C7_truncation (List.replicate 120 'x')).2.1 (by decide)⟩⟩

/-! ## Shared list machinery for the issue-table updates -/

/-- With unique ids, two rows with the same id are the same row. -/
theorem row_eq_of_id_eq {l : List Issue}
    (hnd : (l.map Issue.id).Nodup) {a b : Issue}
    (ha : a ∈ l) (hb : b ∈ l) (hid : a.id = b.id) : a = b :=
  List.inj_on_of_nodup_map hnd ha hb hid

/-- Lemma: `find?` by id commutes with an id-preserving row update. -/
theorem find?_map_of_id_eq {l : List Issue} {g : Issue → Issue}
    (hg : ∀ x, (g x).id = x.id) (id : String) :
    (l.map g).find? (fun i => i.id == id) =
      ((l.find? (fun i => i.id == id)).map g) := by
  rw [List.find?_map]
  have hp : ((fun i : Issue => i.id == id) ∘ g) =
      (fun i : Issue => i.id == id) := by
    funext x
    simp [Function.comp, hg]
  rw [hp]

/-- Id-preserving row updates keep the id column unchanged, hence
keep it `Nodup`. -/
theorem map_id_of_id_eq {l : List Issue} {g : Issue → Issue}
    (hg : ∀ x, (g x).id = x.id) :
    (l.map g).map Issue.id = l.map Issue.id := by
  rw [List.map_map]
  exact List.map_congr_left (fun x _ => hg x)

/-- An issue found by `find?` satisfies its predicate: its id is the
searched id. -/
theorem find?_id_eq {l : List Issue} {id : String} {i : Issue}
    (h : l.find? (fun j => j.id == id) = some i) : i.id = id := by
  have := List.find?_some h
  simpa using this

/-! ## C1 — claim semantics -/

/-- The claim-update row transformation preserves ids. -/
theorem claim_upd_id (id a : String) (ts : Nat) (i : Issue) :
    (claim_upd id a ts i).id = i.id := by
  unfold claim_upd
  split <;> rfl

/-- Lemma: `claim_issue` on an existing non-open issue fails `AlreadyClaimed`
with the current assignee (`unwrap_or_default`), leaving the state
unchanged. -/
theorem claim_nonopen (db : Db) (id : String) (a : String) (ts : Nat)
    {i : Issue} (hnd : (db.issues.map Issue.id).Nodup)
    (hfind : db.issues.find? (fun j => j.id == id) = some i)
    (hst : i.status ≠ Status.Open) :
    claim_issue db id a ts =
      (.error (.AlreadyClaimed id (i.assignee.getD "")), db) := by
  have hrows : db.issues.countP
      (fun j => decide (j.id = id ∧ j.status = Status.Open)) = 0 := by
    rw [List.countP_eq_zero]
    intro j hj hp
    rw [decide_eq_true_iff] at hp
    have hji : j = i := row_eq_of_id_eq hnd hj
      (List.mem_of_find?_eq_some hfind) (hp.1.trans (find?_id_eq hfind).symm)
    exact hst (hji ▸ hp.2)
  simp only [claim_issue, hrows]
  simp [get_issue_only, hfind]

/-- Lemma: `claim_issue` on an open issue (under unique ids) succeeds,
producing the claimed row and the updated state. -/
theorem claim_open {db : Db} {id : String} (a : String) (ts : Nat)
    {i : Issue}
    (hfind : db.issues.find? (fun j => j.id == id) = some i)
    (hopen : i.status = Status.Open) :
    claim_issue db id a ts =
      (.ok { i with
              status := Status.InProgress,
              assignee := some a,
              updated_at := ts },
       { db with
          issues := db.issues.map (claim_upd id a ts),
          events := db.events ++
            [{ id := db.next_event_id, issue_id := id,
               event_type := "claimed", actor := some a, detail := none,
               created_at := ts }],
          next_event_id := db.next_event_id + 1 }) := by
  have hiid : i.id = id := find?_id_eq hfind
  have hrows : ¬ db.issues.countP
      (fun j => decide (j.id = id ∧ j.status = Status.Open)) = 0 := by
    intro h0
    rw [List.countP_eq_zero] at h0
    exact h0 i (List.mem_of_find?_eq_some hfind) (by simp [hiid, hopen])
  have hany : (db.issues.map (claim_upd id a ts)).any
      (fun j => j.id == id) = true := by
    rw [List.any_eq_true]
    refine ⟨claim_upd id a ts i,
      List.mem_map_of_mem _ (List.mem_of_find?_eq_some hfind), ?_⟩
    simp [claim_upd_id, hiid]
  have hfind1 : (db.issues.map (claim_upd id a ts)).find?
      (fun j => j.id == id) = some (claim_upd id a ts i) := by
    rw [find?_map_of_id_eq (claim_upd_id id a ts) id, hfind]
    rfl
  have hupd : claim_upd id a ts i =
      { i with
         status := Status.InProgress,
         assignee := some a,
         updated_at := ts } := by
    simp [claim_upd, hiid, hopen]
  simp only [claim_issue]
  rw [if_neg hrows]
  simp only [insert_event, hany]
  simp [get_issue_only, hfind1, hupd]

/-- C1: claiming an open issue transitions it to `in_progress` with the
claimer as assignee; claiming an existing issue that is not open fails
`AlreadyClaimed` carrying the id and the current holder; consequently,
of two successive claims on an open issue by `a1` then `a2`, the first
succeeds and the second fails with `AlreadyClaimed` naming `a1` (claim
atomicity is modelled by the serialisation of the engine, §5). -/
theorem C1_claim_race (db : Db) (id a1 a2 : String) (ts1 ts2 : Nat)
    (i : Issue) (hnd : (db.issues.map Issue.id).Nodup)
    (hfind : db.issues.find? (fun j => j.id == id) = some i) :
    (i.status = Status.Open →
      ∃ db', claim_issue db id a1 ts1 =
          (.ok { i with
                  status := Status.InProgress,
                  assignee := some a1,
                  updated_at := ts1 }, db') ∧
        claim_issue db' id a2 ts2 =
          (.error (.AlreadyClaimed id a1), db')) ∧
    (∀ h, i.status ≠ Status.Open → i.assignee = some h →
      claim_issue db id a1 ts1 = (.error (.AlreadyClaimed id h), db)) := by
  constructor
  · intro hopen
    have hiid : i.id = id := find?_id_eq hfind
    have hstep := claim_open a1 ts1 hfind hopen
    refine ⟨(claim_issue db id a1 ts1).2, ?_, ?_⟩
    · rw [hstep]
    · rw [hstep]
      have hfind1 : (db.issues.map (claim_upd id a1 ts1)).find?
          (fun j => j.id == id) = some (claim_upd id a1 ts1 i) := by
        rw [find?_map_of_id_eq (claim_upd_id id a1 ts1) id, hfind]
        rfl
      have hnd1 : ((db.issues.map (claim_upd id a1 ts1)).map Issue.id).Nodup := by
        rw [map_id_of_id_eq (claim_upd_id id a1 ts1)]
        exact hnd
      have hupd : claim_upd id a1 ts1 i =
          { i with
             status := Status.InProgress,
             assignee := some a1,
             updated_at := ts1 } := by
        simp [claim_upd, hiid, hopen]
      have hres := claim_nonopen { db with
          issues := db.issues.map (claim_upd id a1 ts1),
          events := db.events ++
            [{ id := db.next_event_id, issue_id := id,
               event_type := "claimed", actor := some a1, detail := none,
               created_at := ts1 }],
          next_event_id := db.next_event_id + 1 } id a2 ts2 hnd1 hfind1
        (by simp [hupd])
      rw [hres, hupd]
      rfl
  · intro h hst hass
    rw [claim_nonopen db id a1 ts1 hnd hfind hst, hass]
    rfl

/-- C1 witness: on `db_w1`, actor `a1` claims the open task `pn-a`,
then `a2`'s claim fails naming `a1`. -/
theorem C1_wit :
    ∃ db', claim_issue db_w1 "pn-a" "a1" 10 =
        (.ok { mk_task "pn-a" 1 with
                status := Status.InProgress,
                assignee := some "a1", updated_at := 10 }, db') ∧
      claim_issue db' "pn-a" "a2" 11 =
        (.error (.AlreadyClaimed "pn-a" "a1"), db') :=
  (C1_claim_race db_w1 "pn-a" "a1" "a2" 10 11 (mk_task "pn-a" 1)
    (by decide) (by decide)).1 (by decide)

/-! ## C6 — delete cascade vs. frame -/

/-- Filtering for `p` after keeping only the rows violating `p` yields
nothing. -/
theorem filter_not_filter (p : α → Bool) (l : List α) :
    (l.filter (fun x => !(p x))).filter p = [] := by
  induction l with
  | nil => rfl
  | cons a l ih =>
    by_cases h : p a = true <;> simp [List.filter_cons, h, ih]

/-- A successful `delete_issue` always performed the full cascade, and
when `force = false` the precondition (no dependents, no comments) held. -/
theorem delete_issue_ok {db : Db} {id : String} {force : Bool} {db' : Db}
    (h : delete_issue db id force = (.ok (), db')) :
    db' = { db with
      deps := db.deps.filter (fun e => !(e.1 == id || e.2 == id)),
      comments := db.comments.filter (fun c => !(c.issue_id == id)),
      events := db.events.filter (fun ev => !(ev.issue_id == id)),
      issues := db.issues.filter (fun i => !(i.id == id)) } ∧
    (force = false →
      db.deps.countP (fun e => e.2 == id) = 0 ∧
      db.comments.countP (fun c => c.issue_id == id) = 0) := by
  unfold delete_issue at h
  cases hget : get_issue_only db id <;> rw [hget] at h
  · simp at h
  · by_cases hcond : force = false ∧
        (0 < db.deps.countP (fun e => e.2 == id) ∨
         0 < db.comments.countP (fun c => c.issue_id == id))
    · rw [if_pos hcond] at h
      simp at h
    · rw [if_neg hcond] at h
      have hdb : db' = { db with
          deps := db.deps.filter (fun e => !(e.1 == id || e.2 == id)),
          comments := db.comments.filter (fun c => !(c.issue_id == id)),
          events := db.events.filter (fun ev => !(ev.issue_id == id)),
          issues := db.issues.filter (fun i => !(i.id == id)) } :=
        ((Prod.mk.injEq _ _ _ _).mp h).2.symm
      refine ⟨hdb, fun hf => ?_⟩
      rw [hf] at hcond
      simp only [not_and, true_implies] at hcond
      push_neg at hcond
      omega

/-- C6 (counterexample): on `db_w6` (issue `a` depends on `b`, has a
`created` event, no dependents, no comments) the non-forced delete of
`a` is permitted — yet it removes `a`'s outgoing dep edge and `a`'s
events, contradicting the claim that they are left in place. -/
theorem C6_cex :
    (delete_issue db_w6 "a" false).1 = .ok () ∧
    db_w6.deps = [("a", "b")] ∧
    db_w6.events.filter (fun ev => ev.issue_id == "a") ≠ [] ∧
    (delete_issue db_w6 "a" false).2.deps = [] ∧
    (delete_issue db_w6 "a" false).2.events.filter
      (fun ev => ev.issue_id == "a") = [] := by
  decide

/-- C6 (amended): `delete_issue` cascades regardless of `force`: a
successful delete removes every dep edge touching the id, the issue's
comments, its events, and the issue row; `force = false` only gates the
precondition that the issue had no dependents and no comments. -/
theorem C6_delete_frame (db : Db) (id : String) (force : Bool) (db' : Db)
    (h : delete_issue db id force = (.ok (), db')) :
    (force = false →
      db.deps.countP (fun e => e.2 == id) = 0 ∧
      db.comments.countP (fun c => c.issue_id == id) = 0) ∧
    db'.deps.filter (fun e => e.1 == id || e.2 == id) = [] ∧
    db'.comments.filter (fun c => c.issue_id == id) = [] ∧
    db'.events.filter (fun ev => ev.issue_id == id) = [] ∧
    db'.issues.filter (fun i => i.id == id) = [] := by
  obtain ⟨rfl, hpre⟩ := delete_issue_ok h
  exact ⟨hpre, filter_not_filter _ _, filter_not_filter _ _,
    filter_not_filter _ _, filter_not_filter _ _⟩

/-- C6 witness: the amended theorem applied to the concrete non-forced
delete of `a` from `db_w6`. -/
theorem C6_wit :
    (false = false →
      db_w6.deps.countP (fun e => e.2 == "a") = 0 ∧
      db_w6.comments.countP (fun c => c.issue_id == "a") = 0) ∧
    ((delete_issue db_w6 "a" false).2.deps.filter
        (fun e => e.1 == "a" || e.2 == "a") = [] ∧
      (delete_issue db_w6 "a" false).2.comments.filter
        (fun c => c.issue_id == "a") = [] ∧
      (delete_issue db_w6 "a" false).2.events.filter
        (fun ev => ev.issue_id == "a") = [] ∧
      (delete_issue db_w6 "a" false).2.issues.filter
        (fun i => i.id == "a") = []) :=
  let h := C6_delete_frame db_w6 "a" false (delete_issue db_w6 "a" false).2
    (by decide)
  ⟨h.1, h.2.1, h.2.2.1, h.2.2.2.1, h.2.2.2.2⟩

/-! ## C4 — `fixes` auto-close -/

/-- The close-update row transformation preserves ids. -/
theorem close_upd_id (id : String) (r : Option String) (ts : Nat)
    (i : Issue) : (close_upd id r ts i).id = i.id := by
  unfold close_upd
  split <;> rfl

/-- C4: when `close_issue` succeeds on an issue whose `fixes` field
references an existing distinct issue, the target row is set to
`closed` with `close_reason = "fixed by {id}"` and `closed_at = ts`
(overwriting whatever was there — no hypothesis constrains the target's
prior status), and exactly two `closed` events are appended: one for
the issue, one for the target. -/
theorem C4_fixes_autoclose (db : Db) (id fid : String)
    (reason : Option String) (force : Bool) (actor : String) (ts : Nat)
    (i t : Issue)
    (hi : db.issues.find? (fun j => j.id == id) = some i)
    (ht : db.issues.find? (fun j => j.id == fid) = some t)
    (hfix : i.fixes = some fid) (hne : fid ≠ id)
    (hst : ¬ (force = false ∧ i.status = Status.Closed)) :
    ∃ db', close_issue db id reason force actor ts =
        (.ok { i with
                status := Status.Closed, closed_at := some ts,
                close_reason := reason, updated_at := ts }, db') ∧
      db'.issues.find? (fun j => j.id == fid) =
        some { t with
                status := Status.Closed, closed_at := some ts,
                close_reason := some ("fixed by " ++ id),
                updated_at := ts } ∧
      db'.events = db.events ++
        [{ id := db.next_event_id, issue_id := id, event_type := "closed",
           actor := some actor, detail := reason, created_at := ts },
         { id := db.next_event_id + 1, issue_id := fid,
           event_type := "closed", actor := some actor,
           detail := some ("fixed by " ++ id), created_at := ts }] := by
  have hiid : i.id = id := find?_id_eq hi
  have htid : t.id = fid := find?_id_eq ht
  -- the issue table after the first and second UPDATE
  set l1 : List Issue := db.issues.map (close_upd id reason ts) with hl1
  set l2 : List Issue :=
    l1.map (close_upd fid (some ("fixed by " ++ id)) ts) with hl2
  have hfind1 : l1.find? (fun j => j.id == id) =
      some (close_upd id reason ts i) := by
    rw [hl1, find?_map_of_id_eq (close_upd_id id reason ts) id, hi]
    rfl
  have hfind1f : l1.find? (fun j => j.id == fid) =
      some (close_upd id reason ts t) := by
    rw [hl1, find?_map_of_id_eq (close_upd_id id reason ts) fid, ht]
    rfl
  have ht1 : close_upd id reason ts t = t := by
    rw [close_upd, if_neg]
    rw [htid]
    exact fun hc => hne hc
  have hfind2 : l2.find? (fun j => j.id == id) =
      some (close_upd id reason ts i) := by
    rw [hl2, find?_map_of_id_eq (close_upd_id fid _ ts) id, hfind1]
    have : close_upd fid ("fixed by " ++ id) ts (close_upd id reason ts i) =
        close_upd id reason ts i := by
      rw [close_upd, if_neg]
      rw [close_upd_id, hiid]
      exact fun hc => hne hc.symm
    simpa using this
  have hfind2f : l2.find? (fun j => j.id == fid) =
      some { t with
              status := Status.Closed, closed_at := some ts,
              close_reason := some ("fixed by " ++ id),
              updated_at := ts } := by
    rw [hl2, find?_map_of_id_eq (close_upd_id fid _ ts) fid, hfind1f, ht1]
    have : close_upd fid (some ("fixed by " ++ id)) ts t =
        { t with
           status := Status.Closed, closed_at := some ts,
           close_reason := some ("fixed by " ++ id), updated_at := ts } := by
      rw [close_upd, if_pos htid]
    simpa using this
  have hany1 : l1.any (fun j => j.id == id) = true := by
    rw [List.any_eq_true]
    exact ⟨close_upd id reason ts i,
      List.mem_of_find?_eq_some hfind1, by simp [close_upd_id, hiid]⟩
  have hany2 : l2.any (fun j => j.id == fid) = true := by
    rw [List.any_eq_true]
    refine ⟨_, List.mem_of_find?_eq_some hfind2f, by simp [htid]⟩
  have hupd_i : close_upd id reason ts i =
      { i with
         status := Status.Closed, closed_at := some ts,
         close_reason := reason, updated_at := ts } := by
    rw [close_upd, if_pos hiid]
  have hrun : close_issue db id reason force actor ts =
      (.ok { i with
              status := Status.Closed, closed_at := some ts,
              close_reason := reason, updated_at := ts },
       { db with
          issues := l2,
          events := (db.events ++
            [{ id := db.next_event_id, issue_id := id,
               event_type := "closed", actor := some actor,
               detail := reason, created_at := ts }]) ++
            [{ id := db.next_event_id + 1, issue_id := fid,
               event_type := "closed", actor := some actor,
               detail := some ("fixed by " ++ id), created_at := ts }],
          next_event_id := db.next_event_id + 1 + 1 }) := by
    simp only [close_issue, get_issue_only, hi]
    rw [if_neg hst]
    simp only [insert_event, ← hl1, hany1, if_true, hfix, ← hl2, hany2]
    simp [get_issue_only, hfind2, hupd_i, hfix]
  refine ⟨_, hrun, ?_, ?_⟩
  · exact hfind2f
  · simp

/-- C4 witness: closing the task `pn-fix` (which fixes the open bug
`pn-bug`) in `db_w4` also closes `pn-bug` with reason
`fixed by pn-fix` and appends the two `closed` events. -/
theorem C4_wit :
    ∃ db', close_issue db_w4 "pn-fix" (some "implemented") false "a" 9 =
        (.ok { mk_task "pn-fix" 2 with
                fixes := some "pn-bug",
                status := Status.Closed, closed_at := some 9,
                close_reason := some "implemented", updated_at := 9 }, db') ∧
      db'.issues.find? (fun j => j.id == "pn-bug") =
        some { mk_task "pn-bug" 1 with
                issue_type := IssueType.Bug,
                status := Status.Closed, closed_at := some 9,
                close_reason := some ("fixed by " ++ "pn-fix"),
                updated_at := 9 } ∧
      db'.events = db_w4.events ++
        [{ id := 3, issue_id := "pn-fix", event_type := "closed",
           actor := some "a", detail := some "implemented",
           created_at := 9 },
         { id := 4, issue_id := "pn-bug", event_type := "closed",
           actor := some "a", detail := some ("fixed by " ++ "pn-fix"),
           created_at := 9 }] := by
  have h := C4_fixes_autoclose db_w4 "pn-fix" "pn-bug" (some "implemented")
    false "a" 9
    { mk_task "pn-fix" 2 with fixes := some "pn-bug" }
    { mk_task "pn-bug" 1 with issue_type := IssueType.Bug }
    (by decide) (by decide) (by decide) (by decide) (by decide)
  simpa using h

/-! ## C2 — export / import round-trip -/

theorem insert_sorted_perm (le : α → α → Bool) (a : α) (l : List α) :
    (insert_sorted le a l).Perm (a :: l) := by
  induction l with
  | nil => exact List.Perm.refl _
  | cons b l ih =>
    unfold insert_sorted
    by_cases h : le a b = true
    · rw [if_pos h]
    · rw [if_neg h]
      exact (ih.cons b).trans (List.Perm.swap a b l)

theorem sort_by_perm (le : α → α → Bool) (l : List α) :
    (sort_by le l).Perm l := by
  induction l with
  | nil => exact List.Perm.refl _
  | cons a l ih =>
    exact (insert_sorted_perm le a (sort_by le l)).trans (ih.cons a)

/-- Lemma: `find?` returns the same result on permuted lists when at most one
element can satisfy the predicate. -/
theorem find?_perm_of_unique {l l' : List α} (p : α → Bool)
    (h : l.Perm l')
    (huniq : ∀ a ∈ l, ∀ b ∈ l, p a → p b → a = b) :
    l.find? p = l'.find? p := by
  cases hf : l.find? p with
  | none =>
    rw [List.find?_eq_none] at hf
    rw [eq_comm, List.find?_eq_none]
    intro a ha
    exact hf a (h.mem_iff.mpr ha)
  | some a =>
    have hpa := List.find?_some hf
    have hal : a ∈ l := List.mem_of_find?_eq_some hf
    cases hf' : l'.find? p with
    | none =>
      rw [List.find?_eq_none] at hf'
      exact absurd hpa (hf' a (h.subset hal))
    | some b =>
      have hpb := List.find?_some hf'
      have hbl : b ∈ l := h.symm.subset (List.mem_of_find?_eq_some hf')
      rw [huniq a hal b hbl hpa hpb]

/-- C2: for every database state with unique issue ids whose export
passes the import's referential-integrity validation, running
`export_jsonl` then `import_jsonl` succeeds and yields an observably
equal state: the issue, dep and comment cardinalities are unchanged and
`get_issue_only` returns the same row for every id.  (`export_jsonl`
and `import_jsonl` are modelled from the spec; their source is not
under src/.) -/
theorem C2_round_trip (db : Db)
    (hnd : (db.issues.map Issue.id).Nodup)
    (href : refs_ok (export_jsonl db) = true) :
    ∃ db', import_jsonl db (export_jsonl db) = .ok db' ∧
      db'.issues.length = db.issues.length ∧
      db'.deps.length = db.deps.length ∧
      db'.comments.length = db.comments.length ∧
      ∀ id, get_issue_only db' id = get_issue_only db id := by
  refine ⟨{ issues := (export_jsonl db).issues,
            deps := (export_jsonl db).deps,
            comments := (export_jsonl db).comments,
            events := (export_jsonl db).events,
            next_event_id :=
              (((export_jsonl db).events.map (fun ev => ev.id)).foldr
                Nat.max 0) + 1 }, ?_, ?_, ?_, ?_, ?_⟩
  · simp only [import_jsonl, href, if_true]
  · exact (sort_by_perm _ db.issues).length_eq
  · exact (sort_by_perm _ db.deps).length_eq
  · exact (sort_by_perm _ db.comments).length_eq
  · intro id
    unfold get_issue_only
    simp only [export_jsonl]
    rw [find?_perm_of_unique (fun j => j.id == id)
      (sort_by_perm _ db.issues) ?_]
    intro a ha b hb hpa hpb
    exact row_eq_of_id_eq hnd ((sort_by_perm _ db.issues).subset ha)
      ((sort_by_perm _ db.issues).subset hb) (by
        simp only [beq_iff_eq] at hpa hpb
        rw [hpa, hpb])

/-- C2 witness: the round trip on the concrete state `db_w2` (two
issues, one dep, one comment). -/
theorem C2_wit :
    ∃ db', import_jsonl db_w2 (export_jsonl db_w2) = .ok db' ∧
      db'.issues.length = db_w2.issues.length ∧
      db'.deps.length = db_w2.deps.length ∧
      db'.comments.length = db_w2.comments.length ∧
      ∀ id, get_issue_only db' id = get_issue_only db_w2 id :=
  C2_round_trip db_w2 (by decide) (by decide)

/-! ## Graph machinery: membership, reachability, edge insertion -/

theorem mem_succs {edges : List (String × String)} {v p : String} :
    p ∈ succs edges v ↔ (v, p) ∈ edges := by
  unfold succs
  simp only [List.mem_map, List.mem_filter, beq_iff_eq]
  constructor
  · rintro ⟨e, ⟨he, h1⟩, h2⟩
    have : e = (v, p) := by
      cases e
      simp_all
    exact this ▸ he
  · intro h
    exact ⟨(v, p), ⟨h, rfl⟩, rfl⟩

theorem mem_nodes_of {edges : List (String × String)} {e : String × String}
    (h : e ∈ edges) : e.1 ∈ nodes_of edges ∧ e.2 ∈ nodes_of edges := by
  induction edges with
  | nil => cases h
  | cons f l ih =>
    simp only [nodes_of, List.foldr_cons] at *
    rcases List.mem_cons.mp h with rfl | h'
    · simp
    · have := ih h'
      simp [this.1, this.2]

theorem succs_mem_nodes {edges : List (String × String)} {v p : String}
    (h : p ∈ succs edges v) : p ∈ nodes_of edges :=
  (mem_nodes_of (mem_succs.mp h)).2

/-- The empty edge set is acyclic. -/
theorem acyclic_nil : acyclic ([] : List (String × String)) := by
  rintro ⟨x, h⟩
  obtain ⟨y, hs, -⟩ := Relation.TransGen.head'_iff.mp h
  exact absurd hs (by simp [edge_rel])

/-- A single non-loop edge is acyclic. -/
theorem acyclic_single {a b : String} (hne : a ≠ b) :
    acyclic [(a, b)] := by
  rintro ⟨x, h⟩
  have hstep : ∀ u v, edge_rel [(a, b)] u v → u = a ∧ v = b := by
    intro u v hs
    simpa [edge_rel, Prod.ext_iff] using hs
  have hboth : ∀ u v, Relation.TransGen (edge_rel [(a, b)]) u v →
      u = a ∧ v = b := by
    intro u v huv
    induction huv with
    | single hs => exact hstep _ _ hs
    | tail _ hs ih => exact ⟨ih.1, (hstep _ _ hs).2⟩
  have := hboth x x h
  exact hne (this.1.symm.trans this.2)

theorem edge_rel_append {edges : List (String × String)} {c p u v : String} :
    edge_rel (edges ++ [(c, p)]) u v ↔
      edge_rel edges u v ∨ (u = c ∧ v = p) := by
  simp [edge_rel, List.mem_append, Prod.ext_iff]

/-- Walk decomposition for one added edge `c → p`: a walk in the
extended graph either stays in the old graph or crosses the new edge,
leaving old-graph walks to `c` and from `p`. -/
theorem reflTransGen_append {edges : List (String × String)} {c p x y : String}
    (h : Relation.ReflTransGen (edge_rel (edges ++ [(c, p)])) x y) :
    Relation.ReflTransGen (edge_rel edges) x y ∨
      (Relation.ReflTransGen (edge_rel edges) x c ∧
       Relation.ReflTransGen (edge_rel edges) p y) := by
  induction h using Relation.ReflTransGen.head_induction_on with
  | refl => exact Or.inl Relation.ReflTransGen.refl
  | head hs _ ih =>
    rcases edge_rel_append.mp hs with hold | ⟨rfl, rfl⟩
    · rcases ih with hxy | ⟨hc, hp⟩
      · exact Or.inl (Relation.ReflTransGen.head hold hxy)
      · exact Or.inr ⟨Relation.ReflTransGen.head hold hc, hp⟩
    · rcases ih with hxy | ⟨hc, hp⟩
      · exact Or.inr ⟨Relation.ReflTransGen.refl, hxy⟩
      · exact Or.inr ⟨Relation.ReflTransGen.refl, hp⟩

/-- A cycle in the graph extended with `c → p` forces, in the old
graph, either a cycle or a path from `p` back to `c`. -/
theorem transGen_append_cycle {edges : List (String × String)} {c p x : String}
    (h : Relation.TransGen (edge_rel (edges ++ [(c, p)])) x x)
    (hold : acyclic edges) : reaches edges p c := by
  obtain ⟨y, hs, ht⟩ := Relation.TransGen.head'_iff.mp h
  rcases edge_rel_append.mp hs with hstep | ⟨rfl, rfl⟩
  · rcases reflTransGen_append ht with hyx | ⟨hyc, hpx⟩
    · exact absurd ⟨x, Relation.TransGen.head' hstep hyx⟩ hold
    · exact (hpx.tail hstep).trans hyc
  · rcases reflTransGen_append ht with hyx | ⟨hyc, _⟩
    · exact hyx
    · exact hyc

/-- Adding an edge whose reverse reachability was checked keeps the
graph acyclic. -/
theorem acyclic_append {edges : List (String × String)} {c p : String}
    (hacyc : acyclic edges) (hnr : ¬ reaches edges p c) :
    acyclic (edges ++ [(c, p)]) := by
  rintro ⟨x, h⟩
  exact hnr (transGen_append_cycle h hacyc)

/-- Any edge subset (filter) of an acyclic graph is acyclic. -/
theorem acyclic_filter {edges : List (String × String)}
    (hacyc : acyclic edges) (f : String × String → Bool) :
    acyclic (edges.filter f) := by
  rintro ⟨x, h⟩
  refine hacyc ⟨x, Relation.TransGen.mono ?_ h⟩
  intro a b hab
  exact List.mem_of_mem_filter hab

/-! ## BFS (`has_cycle`) verification -/

theorem bfs_fold_cons (p : String) (ps : List String) (q : List String)
    (v : Finset String) :
    bfs_fold (p :: ps) (q, v) =
      if p ∈ v then bfs_fold ps (q, v)
      else bfs_fold ps (q ++ [p], insert p v) := by
  by_cases hpv : p ∈ v
  · rw [if_pos hpv]
    simp only [bfs_fold, List.foldl_cons, if_pos hpv]
  · rw [if_neg hpv]
    simp only [bfs_fold, List.foldl_cons, if_neg hpv]

theorem bfs_fold_measure (nodes : Finset String) :
    ∀ (ps : List String) (q : List String) (v : Finset String),
    (∀ p ∈ ps, p ∈ nodes) →
    (bfs_fold ps (q, v)).1.length + (nodes \ (bfs_fold ps (q, v)).2).card =
      q.length + (nodes \ v).card
  | [], q, v, _ => rfl
  | p :: ps, q, v, hps => by
    rw [bfs_fold_cons]
    by_cases hpv : p ∈ v
    · rw [if_pos hpv]
      exact bfs_fold_measure nodes ps q v
        (fun x hx => hps x (List.mem_cons_of_mem p hx))
    · rw [if_neg hpv]
      have hp : p ∈ nodes \ v :=
        Finset.mem_sdiff.mpr ⟨hps p (List.mem_cons_self p ps), hpv⟩
      have hpos : 0 < (nodes \ v).card := Finset.card_pos.mpr ⟨p, hp⟩
      rw [bfs_fold_measure nodes ps (q ++ [p]) (insert p v)
        (fun x hx => hps x (List.mem_cons_of_mem p hx))]
      rw [List.length_append, Finset.sdiff_insert,
        Finset.card_erase_of_mem hp]
      simp only [List.length_cons, List.length_nil]
      omega

theorem bfs_fold_visited_sub :
    ∀ (ps : List String) (q : List String) (v : Finset String),
    ∀ x ∈ v, x ∈ (bfs_fold ps (q, v)).2
  | [], _, _, x, hx => hx
  | p :: ps, q, v, x, hx => by
    rw [bfs_fold_cons]
    by_cases hpv : p ∈ v
    · rw [if_pos hpv]
      exact bfs_fold_visited_sub ps q v x hx
    · rw [if_neg hpv]
      exact bfs_fold_visited_sub ps (q ++ [p]) (insert p v) x
        (Finset.mem_insert_of_mem hx)

theorem bfs_fold_queue_sub :
    ∀ (ps : List String) (q : List String) (v : Finset String),
    ∀ x ∈ q, x ∈ (bfs_fold ps (q, v)).1
  | [], _, _, _, hx => hx
  | p :: ps, q, v, x, hx => by
    rw [bfs_fold_cons]
    by_cases hpv : p ∈ v
    · rw [if_pos hpv]
      exact bfs_fold_queue_sub ps q v x hx
    · rw [if_neg hpv]
      exact bfs_fold_queue_sub ps (q ++ [p]) (insert p v) x
        (List.mem_append_left _ hx)

theorem bfs_fold_mem_queue :
    ∀ (ps : List String) (q : List String) (v : Finset String),
    ∀ x ∈ (bfs_fold ps (q, v)).1, x ∈ q ∨ x ∈ ps
  | [], _, _, _, hx => Or.inl hx
  | p :: ps, q, v, x, hx => by
    rw [bfs_fold_cons] at hx
    by_cases hpv : p ∈ v
    · rw [if_pos hpv] at hx
      rcases bfs_fold_mem_queue ps q v x hx with h | h
      · exact Or.inl h
      · exact Or.inr (List.mem_cons_of_mem p h)
    · rw [if_neg hpv] at hx
      rcases bfs_fold_mem_queue ps (q ++ [p]) (insert p v) x hx with h | h
      · rcases List.mem_append.mp h with h' | h'
        · exact Or.inl h'
        · exact Or.inr (List.mem_cons.mpr (Or.inl (List.mem_singleton.mp h')))
      · exact Or.inr (List.mem_cons_of_mem p h)

theorem bfs_fold_ps_visited :
    ∀ (ps : List String) (q : List String) (v : Finset String),
    ∀ p ∈ ps, p ∈ (bfs_fold ps (q, v)).2
  | p :: ps, q, v, x, hx => by
    rw [bfs_fold_cons]
    rcases List.mem_cons.mp hx with rfl | hx'
    · by_cases hpv : x ∈ v
      · rw [if_pos hpv]
        exact bfs_fold_visited_sub ps q v x hpv
      · rw [if_neg hpv]
        exact bfs_fold_visited_sub ps (q ++ [x]) (insert x v) x
          (Finset.mem_insert_self x v)
    · by_cases hpv : p ∈ v
      · rw [if_pos hpv]
        exact bfs_fold_ps_visited ps q v x hx'
      · rw [if_neg hpv]
        exact bfs_fold_ps_visited ps (q ++ [p]) (insert p v) x hx'

theorem bfs_fold_mem_visited :
    ∀ (ps : List String) (q : List String) (v : Finset String),
    ∀ x ∈ (bfs_fold ps (q, v)).2, x ∈ v ∨ x ∈ (bfs_fold ps (q, v)).1
  | [], _, _, _, hx => Or.inl hx
  | p :: ps, q, v, x, hx => by
    rw [bfs_fold_cons] at hx ⊢
    by_cases hpv : p ∈ v
    · rw [if_pos hpv] at hx ⊢
      exact bfs_fold_mem_visited ps q v x hx
    · rw [if_neg hpv] at hx ⊢
      rcases bfs_fold_mem_visited ps (q ++ [p]) (insert p v) x hx with h | h
      · rcases Finset.mem_insert.mp h with rfl | h'
        · exact Or.inr (bfs_fold_queue_sub ps (q ++ [x]) (insert x v) x
            (List.mem_append_right _ (List.mem_singleton_self x)))
        · exact Or.inl h'
      · exact Or.inr h

theorem bfs_fold_queue_visited :
    ∀ (ps : List String) (q : List String) (v : Finset String),
    (∀ x ∈ q, x ∈ v) →
    ∀ x ∈ (bfs_fold ps (q, v)).1, x ∈ (bfs_fold ps (q, v)).2
  | [], _, _, hqv, x, hx => hqv x hx
  | p :: ps, q, v, hqv, x, hx => by
    rw [bfs_fold_cons] at hx ⊢
    by_cases hpv : p ∈ v
    · rw [if_pos hpv] at hx ⊢
      exact bfs_fold_queue_visited ps q v hqv x hx
    · rw [if_neg hpv] at hx ⊢
      refine bfs_fold_queue_visited ps (q ++ [p]) (insert p v) ?_ x hx
      intro y hy
      rcases List.mem_append.mp hy with h' | h'
      · exact Finset.mem_insert_of_mem (hqv y h')
      · exact List.mem_singleton.mp h' ▸ Finset.mem_insert_self p v

/-- The `has_cycle` loop always finishes within the fuel bound: one
iteration pops one queue entry and either visits a fresh node or
shrinks the queue. -/
theorem bfs_terminates (edges : List (String × String)) (child : String) :
    ∀ (fuel : Nat) (q : List String) (v : Finset String),
    q.length + (nodes_of edges \ v).card < fuel →
    bfs edges child fuel q v ≠ none
  | 0, q, v, hlt => absurd hlt (by omega)
  | fuel + 1, [], v, _ => by simp [bfs]
  | fuel + 1, current :: rest, v, hlt => by
    simp only [bfs]
    by_cases hc : (current == child) = true
    · rw [if_pos hc]
      simp
    · rw [if_neg hc]
      refine bfs_terminates edges child fuel _ _ ?_
      rw [bfs_fold_measure (nodes_of edges) (succs edges current)
        rest v (fun p hp => succs_mem_nodes hp)]
      simp only [List.length_cons] at hlt
      omega

/-- BFS soundness: a `true` answer means `child` is reachable from the
start (every queue entry is reachable). -/
theorem bfs_true_reaches (edges : List (String × String))
    (child parent : String) :
    ∀ (fuel : Nat) (q : List String) (v : Finset String),
    (∀ x ∈ q, reaches edges parent x) →
    bfs edges child fuel q v = some true →
    reaches edges parent child
  | _ + 1, [], _, _, h => by simp [bfs] at h
  | fuel + 1, current :: rest, v, hq, h => by
    simp only [bfs] at h
    by_cases hc : (current == child) = true
    · exact (beq_iff_eq.mp hc) ▸ hq current (List.mem_cons_self current rest)
    · rw [if_neg hc] at h
      refine bfs_true_reaches edges child parent fuel _ _ ?_ h
      intro x hx
      rcases bfs_fold_mem_queue _ rest v x hx with h' | h'
      · exact hq x (List.mem_cons_of_mem _ h')
      · exact (hq current (List.mem_cons_self current rest)).tail
          (mem_succs.mp h')

/-- BFS completeness: a `false` answer exhibits a successor-closed
visited superset avoiding `child`. -/
theorem bfs_false_closed (edges : List (String × String)) (child : String) :
    ∀ (fuel : Nat) (q : List String) (v : Finset String),
    (∀ x ∈ q, x ∈ v) →
    (∀ x ∈ v, x ∈ q ∨ ∀ w ∈ succs edges x, w ∈ v) →
    (child ∈ v → child ∈ q) →
    bfs edges child fuel q v = some false →
    ∃ V : Finset String, (∀ x ∈ v, x ∈ V) ∧ child ∉ V ∧
      ∀ x ∈ V, ∀ w ∈ succs edges x, w ∈ V
  | _ + 1, [], v, _, hcl, hcv, _ => by
    refine ⟨v, fun x hx => hx, fun hc => absurd (hcv hc)
      (List.not_mem_nil child), ?_⟩
    intro x hx w hw
    rcases hcl x hx with h | h
    · exact absurd h (List.not_mem_nil x)
    · exact h w hw
  | fuel + 1, current :: rest, v, hqv, hcl, hcv, h => by
    simp only [bfs] at h
    by_cases hc : (current == child) = true
    · rw [if_pos hc] at h
      cases h
    · rw [if_neg hc] at h
      obtain ⟨V, hVsub, hVchild, hVcl⟩ :=
        bfs_false_closed edges child fuel
          (bfs_fold (succs edges current) (rest, v)).1
          (bfs_fold (succs edges current) (rest, v)).2
          (bfs_fold_queue_visited _ rest v
            (fun x hx => hqv x (List.mem_cons_of_mem _ hx)))
          (by
            intro x hx
            rcases bfs_fold_mem_visited _ rest v x hx with hxv | hxq
            · rcases hcl x hxv with hxq | hsucc
              · rcases List.mem_cons.mp hxq with rfl | hxrest
                · right
                  intro w hw
                  exact bfs_fold_ps_visited _ rest v w hw
                · exact Or.inl (bfs_fold_queue_sub _ rest v x hxrest)
              · right
                intro w hw
                exact bfs_fold_visited_sub _ rest v w (hsucc w hw)
            · exact Or.inl hxq)
          (by
            intro hchild
            rcases bfs_fold_mem_visited _ rest v child hchild with hxv | hxq
            · rcases List.mem_cons.mp (hcv hxv) with heq | hrest
              · exact absurd heq.symm (by simpa using hc)
              · exact bfs_fold_queue_sub _ rest v child hrest
            · exact hxq) h
      exact ⟨V, fun x hx =>
        hVsub x (bfs_fold_visited_sub _ rest v x hx), hVchild, hVcl⟩

/-- Lemma: `has_cycle` always answers, and answers `true` exactly on
reachability of `child` from `parent`. -/
theorem has_cycle_spec (edges : List (String × String))
    (child parent : String) :
    ∃ b, has_cycle edges child parent = some b ∧
      (b = true ↔ reaches edges parent child) := by
  cases hb : has_cycle edges child parent with
  | none =>
    refine absurd hb (bfs_terminates edges child _ [parent] {parent} ?_)
    have hle : (nodes_of edges \ {parent}).card ≤ (nodes_of edges).card :=
      Finset.card_le_card Finset.sdiff_subset
    simp only [bfs_fuel, List.length_cons, List.length_nil]
    omega
  | some b =>
    refine ⟨b, rfl, ?_, ?_⟩
    · rintro rfl
      refine bfs_true_reaches edges child parent _ [parent] {parent} ?_ hb
      intro x hx
      rw [List.mem_singleton.mp hx]
      exact Relation.ReflTransGen.refl
    · intro hre
      by_contra hbf
      have hbfalse : b = false := by
        cases b
        · rfl
        · exact absurd rfl hbf
      subst hbfalse
      obtain ⟨V, hVsub, hVchild, hVcl⟩ :=
        bfs_false_closed edges child _ [parent] {parent}
          (by
            intro x hx
            rw [List.mem_singleton.mp hx]
            exact Finset.mem_singleton_self parent)
          (by
            intro x hx
            exact Or.inl (by
              rw [Finset.mem_singleton.mp hx]
              exact List.mem_singleton_self parent))
          (fun hcm => by
            rw [Finset.mem_singleton.mp hcm]
            exact List.mem_singleton_self parent) hb
      have hparent : parent ∈ V := hVsub parent (Finset.mem_singleton_self _)
      have hreachV : ∀ y, reaches edges parent y → y ∈ V := by
        intro y hy
        induction hy with
        | refl => exact hparent
        | tail hxy hstep ih =>
          exact hVcl _ ih _ (mem_succs.mpr hstep)
      exact hVchild (hreachV child hre)

/-! ## `add_dep` / `remove_dep` and acyclicity preservation -/

/-- Lemma: `add_dep` fails `CycleDetected` whenever the child is reachable
from the parent through existing edges (both issues existing); with
`c = p` this also rejects self-loops. -/
theorem add_dep_reach_rejected (db : Db) (c p a : String) (ts : Nat)
    (hc : (db.issues.find? (fun i => i.id == c)).isSome)
    (hp : (db.issues.find? (fun i => i.id == p)).isSome)
    (hre : reaches db.deps p c) :
    add_dep db c p a ts = (.error .CycleDetected, db) := by
  obtain ⟨b, hb, hiff⟩ := has_cycle_spec db.deps c p
  have hbt : b = true := hiff.mpr hre
  subst hbt
  obtain ⟨ic, hic⟩ := Option.isSome_iff_exists.mp hc
  obtain ⟨ip, hip⟩ := Option.isSome_iff_exists.mp hp
  simp only [add_dep, get_issue_only, hic, hip, hb]

/-- Whatever `add_dep` does, an acyclic edge set stays acyclic: the
only path that inserts an edge first checked `has_cycle = false`. -/
theorem add_dep_acyclic (db : Db) (c p a : String) (ts : Nat)
    (hacyc : acyclic db.deps) : acyclic (add_dep db c p a ts).2.deps := by
  cases hg1 : get_issue_only db c with
  | error e => simpa only [add_dep, hg1] using hacyc
  | ok i1 =>
  cases hg2 : get_issue_only db p with
  | error e => simpa only [add_dep, hg1, hg2] using hacyc
  | ok i2 =>
  obtain ⟨b, hb, hiff⟩ := has_cycle_spec db.deps c p
  cases b with
  | true => simpa only [add_dep, hg1, hg2, hb] using hacyc
  | false =>
    by_cases hdup : (c, p) ∈ db.deps
    · simp only [add_dep, hg1, hg2, hb, if_pos hdup]
      exact hacyc
    · have hnr : ¬ reaches db.deps p c := fun hre => by
        cases (hiff.mpr hre)
      have hacyc' : acyclic (db.deps ++ [(c, p)]) := acyclic_append hacyc hnr
      simp only [add_dep, hg1, hg2, hb, if_neg hdup, insert_event]
      by_cases hany : (({ db with deps := db.deps ++ [(c, p)] } : Db).issues.any
          (fun i => i.id == c)) = true
      · simp only [hany, if_true]
        exact hacyc'
      · simp only [hany]
        simp only [Bool.false_eq_true, if_false]
        exact hacyc'

/-- Lemma: `remove_dep` only ever removes edges, so acyclicity persists. -/
theorem remove_dep_acyclic (db : Db) (c p a : String) (ts : Nat)
    (hacyc : acyclic db.deps) : acyclic (remove_dep db c p a ts).2.deps := by
  by_cases hrows : db.deps.countP (fun e => e == (c, p)) = 0
  · simp only [remove_dep, hrows, if_pos]
    exact hacyc
  · have hfil : acyclic (db.deps.filter (fun e => !(e == (c, p)))) :=
      acyclic_filter hacyc _
    simp only [remove_dep, if_neg hrows, insert_event]
    by_cases hany : (({ db with
        deps := db.deps.filter (fun e => !(e == (c, p))) } : Db).issues.any
          (fun i => i.id == c)) = true
    · simp only [hany, if_true]
      exact hfil
    · simp only [hany]
      simp only [Bool.false_eq_true, if_false]
      exact hfil

/-- Every sequence of `add_dep`/`remove_dep` calls preserves
acyclicity. -/
theorem apply_dep_ops_acyclic (ops : List DepOp) :
    ∀ db : Db, acyclic db.deps → acyclic (apply_dep_ops db ops).deps := by
  induction ops with
  | nil => exact fun db h => h
  | cons op ops ih =>
    intro db h
    refine ih (apply_dep_op db op) ?_
    cases op with
    | add c p a ts => exact add_dep_acyclic db c p a ts h
    | remove c p a ts => exact remove_dep_acyclic db c p a ts h

/-! ## C10 — duplicate `add_dep` is an unmapped 500 -/

/-- C10: re-adding an edge already present (in the maintained acyclic
state, with both issues present) passes the cycle check — the stored
edge points `c → p` while the check walks from `p` — and then trips the
`PRIMARY KEY (issue_id, depends_on_id)` constraint: `add_dep` fails
with an `Internal` error (HTTP 500, no wire `code`), and neither the
edge set nor the event log changes. -/
theorem C10_duplicate_dep (db : Db) (c p a : String) (ts : Nat)
    (hdup : (c, p) ∈ db.deps) (hacyc : acyclic db.deps)
    (hc : (db.issues.find? (fun i => i.id == c)).isSome)
    (hp : (db.issues.find? (fun i => i.id == p)).isSome) :
    add_dep db c p a ts = (.error (.Internal "failed to add dep"), db) ∧
    http_status (.Internal "failed to add dep") = 500 ∧
    (PensaError.Internal "failed to add dep").code = none := by
  obtain ⟨b, hb, hiff⟩ := has_cycle_spec db.deps c p
  have hnr : ¬ reaches db.deps p c := by
    intro hre
    exact hacyc ⟨c, Relation.TransGen.head'
      (show edge_rel db.deps c p from hdup) hre⟩
  have hbf : b = false := by
    cases b with
    | false => rfl
    | true => exact absurd (hiff.mp rfl) hnr
  subst hbf
  obtain ⟨ic, hic⟩ := Option.isSome_iff_exists.mp hc
  obtain ⟨ip, hip⟩ := Option.isSome_iff_exists.mp hp
  refine ⟨?_, rfl, rfl⟩
  simp only [add_dep, get_issue_only, hic, hip, hb, if_pos hdup]

/-- C10 witness: duplicating the edge `a → b` of `db_w6`. -/
theorem C10_wit :
    add_dep db_w6 "a" "b" "agent" 9 =
      (.error (.Internal "failed to add dep"), db_w6) ∧
    http_status (.Internal "failed to add dep") = 500 ∧
    (PensaError.Internal "failed to add dep").code = none :=
  C10_duplicate_dep db_w6 "a" "b" "agent" 9 (by decide)
    (acyclic_single (by decide)) (by decide) (by decide)

/-! ## DFS (`detect_cycles`) verification -/

theorem dfs_fold_cons (start : String) (path : List String)
    (v : Finset String) (p : String) (ps : List String)
    (sc : List (String × List String) × List (List String)) :
    dfs_fold start path v (p :: ps) sc =
      if p == start && decide (1 < path.length) then
        dfs_fold start path v ps (sc.1, sc.2 ++ [path ++ [p]])
      else if p ∈ v then dfs_fold start path v ps sc
      else dfs_fold start path v ps ((p, path ++ [p]) :: sc.1, sc.2) := by
  by_cases h1 : (p == start && decide (1 < path.length)) = true
  · rw [if_pos h1]
    simp only [dfs_fold, List.foldl_cons, if_pos h1]
  · rw [if_neg h1]
    by_cases h2 : p ∈ v
    · rw [if_pos h2]
      simp only [dfs_fold, List.foldl_cons, if_neg h1, if_pos h2]
    · rw [if_neg h2]
      simp only [dfs_fold, List.foldl_cons, if_neg h1, if_neg h2]

theorem dfs_fold_stack_len (start : String) (path : List String)
    (v : Finset String) :
    ∀ (ps : List String)
      (sc : List (String × List String) × List (List String)),
    (dfs_fold start path v ps sc).1.length ≤ sc.1.length + ps.length
  | [], sc => Nat.le_refl _
  | p :: ps, sc => by
    rw [dfs_fold_cons]
    by_cases h1 : (p == start && decide (1 < path.length)) = true
    · rw [if_pos h1]
      have h : (dfs_fold start path v ps (sc.1, sc.2 ++ [path ++ [p]])).1.length ≤
          sc.1.length + ps.length :=
        dfs_fold_stack_len start path v ps (sc.1, sc.2 ++ [path ++ [p]])
      simp only [List.length_cons]
      omega
    · rw [if_neg h1]
      by_cases h2 : p ∈ v
      · rw [if_pos h2]
        have h : (dfs_fold start path v ps sc).1.length ≤
            sc.1.length + ps.length :=
          dfs_fold_stack_len start path v ps sc
        simp only [List.length_cons]
        omega
      · rw [if_neg h2]
        have h : (dfs_fold start path v ps
            ((p, path ++ [p]) :: sc.1, sc.2)).1.length ≤
            sc.1.length + 1 + ps.length := by
          have := dfs_fold_stack_len start path v ps
            ((p, path ++ [p]) :: sc.1, sc.2)
          simpa using this
        simp only [List.length_cons]
        omega

theorem dfs_fold_stack_mem (start : String) (path : List String)
    (v : Finset String) :
    ∀ (ps : List String)
      (sc : List (String × List String) × List (List String)),
    ∀ e ∈ (dfs_fold start path v ps sc).1,
      e ∈ sc.1 ∨ ∃ pr ∈ ps, e = (pr, path ++ [pr])
  | [], sc, e, he => Or.inl he
  | p :: ps, sc, e, he => by
    rw [dfs_fold_cons] at he
    by_cases h1 : (p == start && decide (1 < path.length)) = true
    · rw [if_pos h1] at he
      rcases dfs_fold_stack_mem start path v ps _ e he with h | ⟨pr, hpr, he'⟩
      · exact Or.inl h
      · exact Or.inr ⟨pr, List.mem_cons_of_mem p hpr, he'⟩
    · rw [if_neg h1] at he
      by_cases h2 : p ∈ v
      · rw [if_pos h2] at he
        rcases dfs_fold_stack_mem start path v ps _ e he with h | ⟨pr, hpr, he'⟩
        · exact Or.inl h
        · exact Or.inr ⟨pr, List.mem_cons_of_mem p hpr, he'⟩
      · rw [if_neg h2] at he
        rcases dfs_fold_stack_mem start path v ps _ e he with h | ⟨pr, hpr, he'⟩
        · rcases List.mem_cons.mp h with rfl | h'
          · exact Or.inr ⟨p, List.mem_cons_self p ps, rfl⟩
          · exact Or.inl h'
        · exact Or.inr ⟨pr, List.mem_cons_of_mem p hpr, he'⟩

theorem dfs_fold_cycles_mem (start : String) (path : List String)
    (v : Finset String) :
    ∀ (ps : List String)
      (sc : List (String × List String) × List (List String)),
    ∀ q ∈ (dfs_fold start path v ps sc).2,
      q ∈ sc.2 ∨ ∃ pr ∈ ps, pr = start ∧ q = path ++ [pr]
  | [], sc, q, hq => Or.inl hq
  | p :: ps, sc, q, hq => by
    rw [dfs_fold_cons] at hq
    by_cases h1 : (p == start && decide (1 < path.length)) = true
    · rw [if_pos h1] at hq
      rcases dfs_fold_cycles_mem start path v ps _ q hq with h | ⟨pr, hpr, he'⟩
      · rcases List.mem_append.mp h with h' | h'
        · exact Or.inl h'
        · refine Or.inr ⟨p, List.mem_cons_self p ps,
            beq_iff_eq.mp (Bool.and_elim_left h1), List.mem_singleton.mp h'⟩
      · exact Or.inr ⟨pr, List.mem_cons_of_mem p hpr, he'⟩
    · rw [if_neg h1] at hq
      by_cases h2 : p ∈ v
      · rw [if_pos h2] at hq
        rcases dfs_fold_cycles_mem start path v ps _ q hq with h | ⟨pr, hpr, he'⟩
        · exact Or.inl h
        · exact Or.inr ⟨pr, List.mem_cons_of_mem p hpr, he'⟩
      · rw [if_neg h2] at hq
        rcases dfs_fold_cycles_mem start path v ps _ q hq with h | ⟨pr, hpr, he'⟩
        · exact Or.inl h
        · exact Or.inr ⟨pr, List.mem_cons_of_mem p hpr, he'⟩

/-- Chains compose into reflexive-transitive reachability down to the
last element. -/
theorem chain_getLast_reflTransGen {R : String → String → Prop} :
    ∀ (l : List String) (a b : String), List.Chain R a l →
      (a :: l).getLast? = some b → Relation.ReflTransGen R a b
  | [], a, b, _, hlast => by
    simp only [List.getLast?_singleton, Option.some.injEq] at hlast
    exact hlast ▸ Relation.ReflTransGen.refl
  | c :: l, a, b, hch, hlast => by
    obtain ⟨hR, hch'⟩ := List.chain_cons.mp hch
    rw [List.getLast?_cons_cons] at hlast
    exact Relation.ReflTransGen.head hR
      (chain_getLast_reflTransGen l c b hch' hlast)

/-- A non-trivial closed walk exhibits a dependency cycle. -/
theorem closed_walk_cyclic {edges : List (String × String)}
    {q : List String} (h : is_closed_walk edges q) : cyclic edges := by
  obtain ⟨x, l, rfl, hne, hlast, hch⟩ := h
  cases l with
  | nil => exact absurd rfl hne
  | cons y l' =>
    obtain ⟨hstep, hch'⟩ := List.chain_cons.mp hch
    rw [List.getLast?_cons_cons] at hlast
    exact ⟨x, Relation.TransGen.head' hstep
      (chain_getLast_reflTransGen l' y x hch' hlast)⟩

/-- Pushing an unvisited successor keeps the stack invariant. -/
theorem path_inv_push {edges : List (String × String)} {start : String}
    {current pr : String} {path : List String}
    (hinv : path_inv edges start (current, path))
    (hpr : (current, pr) ∈ edges) :
    path_inv edges start (pr, path ++ [pr]) := by
  obtain ⟨hhead, hlast, hch⟩ := hinv
  refine ⟨?_, List.getLast?_concat path, ?_⟩
  · cases path with
    | nil => cases hhead
    | cons a l => simpa using hhead
  · rw [List.chain'_append]
    refine ⟨hch, List.chain'_singleton pr, ?_⟩
    intro x hx y hy
    simp only [List.head?_cons, Option.mem_def, Option.some.injEq] at hy
    have hx' : x = current := by
      simp only [Option.mem_def] at hx
      rw [hx] at hlast
      exact (Option.some.injEq _ _).mp hlast
    rw [hx', ← hy]
    exact hpr

/-- A recorded entry `path ++ [start]` is a closed walk. -/
theorem record_closed_walk {edges : List (String × String)} {start : String}
    {current : String} {path : List String}
    (hinv : path_inv edges start (current, path))
    (hedge : (current, start) ∈ edges) :
    is_closed_walk edges (path ++ [start]) := by
  obtain ⟨hhead, hlast, hch⟩ := hinv
  cases path with
  | nil => cases hhead
  | cons a mid =>
    have ha : a = start := by simpa using hhead
    have hch2 : List.Chain' (edge_rel edges) ((a :: mid) ++ [start]) := by
      rw [List.chain'_append]
      refine ⟨hch, List.chain'_singleton start, ?_⟩
      intro x hx y hy
      simp only [List.head?_cons, Option.mem_def, Option.some.injEq] at hy
      have hx' : x = current := by
        simp only [Option.mem_def] at hx
        rw [hx] at hlast
        exact (Option.some.injEq _ _).mp hlast
      rw [hx', ← hy]
      exact hedge
    refine ⟨start, mid ++ [start], by simp [ha], by simp,
      List.getLast?_concat _, ?_⟩
    have hchain : List.Chain (edge_rel edges) a (mid ++ [start]) := hch2
    rwa [ha] at hchain

/-- The `detect_cycles` DFS loop finishes within its fuel bound. -/
theorem dfs_terminates (edges : List (String × String)) (start : String) :
    ∀ (fuel : Nat) (stack : List (String × List String))
      (visited : Finset String) (cycles : List (List String)),
    (∀ e ∈ stack, e.1 ∈ nodes_of edges) →
    (nodes_of edges \ visited).card * (edges.length + 1) + stack.length
      < fuel →
    dfs edges start fuel stack visited cycles ≠ none
  | 0, _, _, _, _, hlt => absurd hlt (by omega)
  | fuel + 1, [], visited, cycles, _, _ => by simp [dfs]
  | fuel + 1, (current, path) :: stack, visited, cycles, hstack, hlt => by
    simp only [dfs]
    by_cases hv : current ∈ visited
    · rw [if_pos hv]
      refine dfs_terminates edges start fuel stack visited cycles
        (fun e he => hstack e (List.mem_cons_of_mem _ he)) ?_
      simp only [List.length_cons] at hlt
      omega
    · rw [if_neg hv]
      have hcur : current ∈ nodes_of edges :=
        hstack (current, path) (List.mem_cons_self _ _)
      have hcard : (nodes_of edges \ insert current visited).card =
          (nodes_of edges \ visited).card - 1 := by
        rw [Finset.sdiff_insert, Finset.card_erase_of_mem
          (Finset.mem_sdiff.mpr ⟨hcur, hv⟩)]
      have hpos : 0 < (nodes_of edges \ visited).card :=
        Finset.card_pos.mpr ⟨current, Finset.mem_sdiff.mpr ⟨hcur, hv⟩⟩
      have hsucclen : (succs edges current).length ≤ edges.length := by
        unfold succs
        rw [List.length_map]
        exact List.length_filter_le _ _
      have hlen : (dfs_fold start path (insert current visited)
          (succs edges current) (stack, cycles)).1.length ≤
          stack.length + (succs edges current).length :=
        dfs_fold_stack_len start path (insert current visited)
          (succs edges current) (stack, cycles)
      have hge : edges.length + 1 ≤
          (nodes_of edges \ visited).card * (edges.length + 1) :=
        Nat.le_mul_of_pos_left _ hpos
      refine dfs_terminates edges start fuel _ _ _ ?_ ?_
      · intro e he
        rcases dfs_fold_stack_mem start path (insert current visited)
            (succs edges current) (stack, cycles) e he with h | ⟨pr, hpr, rfl⟩
        · exact hstack e (List.mem_cons_of_mem _ h)
        · exact succs_mem_nodes hpr
      · simp only [List.length_cons] at hlt
        have hbound := Nat.mul_le_mul_right (edges.length + 1)
          (Nat.sub_le (nodes_of edges \ visited).card 1)
        rw [hcard]
        have hexp : ((nodes_of edges \ visited).card - 1) *
            (edges.length + 1) =
            (nodes_of edges \ visited).card * (edges.length + 1) -
              (edges.length + 1) := by
          rw [Nat.sub_mul, Nat.one_mul]
        omega

/-- DFS soundness: every recorded cycle is a genuine closed walk. -/
theorem dfs_sound (edges : List (String × String)) (start : String) :
    ∀ (fuel : Nat) (stack : List (String × List String))
      (visited : Finset String) (cycles : List (List String))
      (res : List (List String) × Finset String),
    dfs edges start fuel stack visited cycles = some res →
    (∀ e ∈ stack, path_inv edges start e) →
    (∀ q ∈ cycles, is_closed_walk edges q) →
    ∀ q ∈ res.1, is_closed_walk edges q
  | _ + 1, [], visited, cycles, res, hres, _, hcyc => by
    simp only [dfs, Option.some.injEq] at hres
    subst hres
    exact hcyc
  | fuel + 1, (current, path) :: stack, visited, cycles, res, hres,
      hstack, hcyc => by
    simp only [dfs] at hres
    by_cases hv : current ∈ visited
    · rw [if_pos hv] at hres
      exact dfs_sound edges start fuel stack visited cycles res hres
        (fun e he => hstack e (List.mem_cons_of_mem _ he)) hcyc
    · rw [if_neg hv] at hres
      have hinv : path_inv edges start (current, path) :=
        hstack (current, path) (List.mem_cons_self _ _)
      refine dfs_sound edges start fuel _ _ _ res hres ?_ ?_
      · intro e he
        rcases dfs_fold_stack_mem start path (insert current visited)
            (succs edges current) (stack, cycles) e he with h | ⟨pr, hpr, rfl⟩
        · exact hstack e (List.mem_cons_of_mem _ h)
        · exact path_inv_push hinv (mem_succs.mp hpr)
      · intro q hq
        rcases dfs_fold_cycles_mem start path (insert current visited)
            (succs edges current) (stack, cycles) q hq
          with h | ⟨pr, hpr, rfl, rfl⟩
        · exact hcyc q h
        · exact record_closed_walk hinv (mem_succs.mp hpr)

/-- The `detect_cycles` outer loop: always answers within fuel and
returns only genuine closed walks. -/
theorem detect_aux_spec (edges : List (String × String)) :
    ∀ (ids : List String) (visitedG : Finset String)
      (cycles : List (List String)),
    (∀ id ∈ ids, id ∈ nodes_of edges) →
    (∀ q ∈ cycles, is_closed_walk edges q) →
    ∃ cycles', detect_aux edges ids visitedG cycles = some cycles' ∧
      ∀ q ∈ cycles', is_closed_walk edges q
  | [], visitedG, cycles, _, hcyc => ⟨cycles, rfl, hcyc⟩
  | start :: ids, visitedG, cycles, hids, hcyc => by
    simp only [detect_aux]
    by_cases hv : start ∈ visitedG
    · rw [if_pos hv]
      exact detect_aux_spec edges ids visitedG cycles
        (fun id h => hids id (List.mem_cons_of_mem _ h)) hcyc
    · rw [if_neg hv]
      have hstart : start ∈ nodes_of edges :=
        hids start (List.mem_cons_self _ _)
      have hinit : ∀ e ∈ [(start, [start])], path_inv edges start e := by
        intro e he
        rw [List.mem_singleton.mp he]
        exact ⟨rfl, rfl, List.chain'_singleton start⟩
      cases hdfs : dfs edges start (dfs_fuel edges) [(start, [start])]
          ∅ cycles with
      | none =>
        refine absurd hdfs (dfs_terminates edges start _ _ _ _ ?_ ?_)
        · intro e he
          rw [List.mem_singleton.mp he]
          exact hstart
        · simp only [dfs_fuel, Finset.sdiff_empty, List.length_cons,
            List.length_nil]
          omega
      | some res =>
        have hsound := dfs_sound edges start (dfs_fuel edges)
          [(start, [start])] ∅ cycles res hdfs hinit hcyc
        exact detect_aux_spec edges ids (visitedG ∪ res.2) res.1
          (fun id h => hids id (List.mem_cons_of_mem _ h)) hsound

/-- Lemma: `detect_cycles` terminates on every graph state and every id
sequence it returns is a genuine closed walk in the dep graph. -/
theorem detect_cycles_spec (edges : List (String × String)) :
    ∃ cycles, detect_cycles edges = some cycles ∧
      ∀ q ∈ cycles, is_closed_walk edges q := by
  refine detect_aux_spec edges (all_ids edges) ∅ [] ?_ (by simp)
  intro id hid
  have : id ∈ edges.map (fun e => e.1) := by
    have hsub : ∀ l : List String, ∀ x ∈ dedup_first l, x ∈ l := by
      intro l
      induction l with
      | nil => intro x hx; cases hx
      | cons a l ih =>
        intro x hx
        rcases List.mem_cons.mp hx with rfl | hx'
        · exact List.mem_cons_self _ _
        · exact List.mem_cons_of_mem _ (ih x (List.mem_of_mem_filter hx'))
    exact hsub _ id hid
  obtain ⟨e, he, rfl⟩ := List.mem_map.mp this
  exact (mem_nodes_of he).1

/-- Acyclic graphs make `detect_cycles` return the empty list. -/
theorem detect_cycles_acyclic {edges : List (String × String)}
    (hacyc : acyclic edges) : detect_cycles edges = some [] := by
  obtain ⟨cycles, hdet, hsound⟩ := detect_cycles_spec edges
  cases cycles with
  | nil => exact hdet
  | cons q rest =>
    exact absurd (closed_walk_cyclic (hsound q (List.mem_cons_self _ _)))
      hacyc

/-! ## C3 — the dep relation stays a DAG -/

/-- C3: `add_dep(child, parent)` fails `CycleDetected` whenever `child`
is reachable from `parent` through existing edges (in particular,
self-loops are rejected: take `child = parent`); and starting from an
acyclic edge set, after any sequence of `add_dep` / `remove_dep` calls
`detect_cycles` returns the empty list. -/
theorem C3_dag_invariant :
    (∀ (db : Db) (c p a : String) (ts : Nat),
        (db.issues.find? (fun i => i.id == c)).isSome →
        (db.issues.find? (fun i => i.id == p)).isSome →
        reaches db.deps p c →
        add_dep db c p a ts = (.error .CycleDetected, db)) ∧
    (∀ (db : Db) (ops : List DepOp), acyclic db.deps →
        detect_cycles (apply_dep_ops db ops).deps = some []) := by
  constructor
  · exact fun db c p a ts hc hp hre =>
      add_dep_reach_rejected db c p a ts hc hp hre
  · intro db ops hacyc
    exact detect_cycles_acyclic (apply_dep_ops_acyclic ops db hacyc)

/-- C3 witness: on `db_w6` the closing edge `b → a` and the self-loop
`a → a` are rejected; on `db_w3`, after two inserts, a rejected closing
edge and one removal, `detect_cycles` is empty. -/
theorem C3_wit :
    add_dep db_w6 "b" "a" "t" 9 = (.error .CycleDetected, db_w6) ∧
    add_dep db_w6 "a" "a" "t" 9 = (.error .CycleDetected, db_w6) ∧
    detect_cycles (apply_dep_ops db_w3 ops_w3).deps = some [] :=
  ⟨C3_dag_invariant.1 db_w6 "b" "a" "t" 9 (by decide) (by decide)
      (Relation.ReflTransGen.single
        (show ("a", "b") ∈ db_w6.deps by decide)),
   C3_dag_invariant.1 db_w6 "a" "a" "t" 9 (by decide) (by decide)
      Relation.ReflTransGen.refl,
   C3_dag_invariant.2 db_w3 ops_w3 acyclic_nil⟩

/-! ## C5 — `detect_cycles` termination and (missing) completeness -/

/-- C5 (counterexample): the edge set `a → b, b → c, c → b` contains
the cycle `b → c → b`, yet `detect_cycles` returns the empty list: the
DFS from the first start id `a` swallows `b` and `c` into the visited
sets while only looking for cycles through `a`, and the later starts are
skipped. -/
theorem C5_cex : cyclic edges_w5 ∧ detect_cycles edges_w5 = some [] :=
  ⟨⟨"b", Relation.TransGen.head
      (show ("b", "c") ∈ edges_w5 by decide)
      (Relation.TransGen.single
        (show ("c", "b") ∈ edges_w5 by decide))⟩,
   by decide⟩

/-- C5 (amended): `detect_cycles` terminates on every graph state
(including cyclic ones) and every id sequence it returns is a genuine
cycle — a non-trivial closed walk — in the dep graph; but it does *not*
return a non-empty list for every cyclic state (it can miss cycles that
avoid the first start id of their component). -/
theorem C5_detect_cycles (edges : List (String × String)) :
    ∃ cycles, detect_cycles edges = some cycles ∧
      (∀ q ∈ cycles, is_closed_walk edges q) ∧
      (cycles ≠ [] → cyclic edges) := by
  obtain ⟨cycles, hdet, hsound⟩ := detect_cycles_spec edges
  refine ⟨cycles, hdet, hsound, ?_⟩
  intro hne
  cases cycles with
  | nil => exact absurd rfl hne
  | cons q rest =>
    exact closed_walk_cyclic (hsound q (List.mem_cons_self _ _))

/-- C5 witness: on the two-cycle `b ↔ c` the amended theorem applies,
and concretely `detect_cycles` returns the closed walk `b, c, b`. -/
theorem C5_wit :
    (∃ cycles, detect_cycles [("b", "c"), ("c", "b")] = some cycles ∧
      (∀ q ∈ cycles, is_closed_walk [("b", "c"), ("c", "b")] q) ∧
      (cycles ≠ [] → cyclic [("b", "c"), ("c", "b")])) ∧
    detect_cycles [("b", "c"), ("c", "b")] = some [["b", "c", "b"]] :=
  ⟨C5_detect_cycles [("b", "c"), ("c", "b")], by decide⟩

end Springfield
